import Mathlib

/-!
# symlinks: path normalisation and link rewriting

A shallow embedding of `src/symlinks.c`.  C strings are lists of characters
(`List Char`, the bytes before the terminating NUL); a buffer of `n` bytes
holds a string of at most `n - 1` characters, so every bounded copy
(`strncpy`, `strncat`, `snprintf`) is a `List.take`.  C `int` results are
`Int`.  System calls (`stat`, `realpath`, `readlink`, `lstat`, `opendir`,
`unlink`, `symlink`) are fields of an explicit environment, and the effects
of a run are returned as a list of events.
-/

namespace Symlinks

/-! ## Constants and string primitives -/

/-- The value of `PATH_MAX` taken from `<limits.h>` on Linux. -/
def PATH_MAX : Nat := 4096

/-- The strings the program matches on. -/
def sDotSlash : List Char := ['/', '.', '/']
def sSlashSlash : List Char := ['/', '/']
def sDotDotSlash : List Char := ['/', '.', '.', '/']
def sSlash : List Char := ['/']
def sUp : List Char := ['.', '.', '/']

/-- `strstr(s, pat)`: the offset of the first occurrence of `pat` in `s`. -/
def strstr : List Char → List Char → Option Nat
  | [], pat => if pat.isEmpty then some 0 else none
  | c :: s, pat =>
    if pat.isPrefixOf (c :: s) then some 0
    else (strstr s pat).map (fun i => i + 1)

/-- `strchr(s, c)`: the offset of the first `c` in `s`. -/
def strchr : List Char → Char → Option Nat
  | [], _ => none
  | d :: s, c => if d = c then some 0 else (strchr s c).map (fun i => i + 1)

/-- `strrchr(s, c)`: the offset of the last `c` in `s`. -/
def strrchr : List Char → Char → Option Nat
  | [], _ => none
  | d :: s, c =>
    match strrchr s c with
    | some i => some (i + 1)
    | none => if d = c then some 0 else none

/-! ## replace_substring (lines 43-96) -/

/-- One pass of the loop body of `replace_substring`, lines 71-90: the match
is at offset `i`; the new string is assembled in `temp[PATH_MAX * 2]` with
bounded appends and copied back into the buffer of `bufsize` bytes. -/
def replace_step (bufsize : Nat) (s old_sub new_sub : List Char) (i : Nat) : List Char :=
  let cap := PATH_MAX * 2
  let temp1 := s.take i
  let temp2 := temp1 ++ new_sub.take (cap - temp1.length - 1)
  let temp3 := temp2 ++ (s.drop (i + old_sub.length)).take (cap - temp2.length - 1)
  temp3.take (bufsize - 1)

/-- The `while (1)` loop of `replace_substring`, lines 57-93.  The C loop has
no bound of its own; `fuel` counts the passes still allowed. -/
def replace_loop (bufsize : Nat) (old_sub new_sub : List Char) :
    Nat → List Char → Int → Int × List Char
  | 0, s, total => (total, s)
  | fuel + 1, s, total =>
    match strstr s old_sub with
    | none => (total, s)
    | some i =>
      if new_sub.length > old_sub.length ∧
          s.length + (new_sub.length - old_sub.length) + 1 > bufsize then
        (-1, s)
      else
        replace_loop bufsize old_sub new_sub fuel
          (replace_step bufsize s old_sub new_sub i) (total + 1)

/-- `replace_substring(s, bufsize, old_sub, new_sub)`: the number of
replacements (or -1) and the new contents of `s`.  Every pass that replaces a
longer string by a shorter one shortens `s`, so `s.length + 1` passes are
enough for all the calls in this program. -/
def replace_substring (s : List Char) (bufsize : Nat) (old_sub new_sub : List Char) :
    Int × List Char :=
  if old_sub.isEmpty then (0, s)
  else replace_loop bufsize old_sub new_sub (s.length + 1) s 0

/-! ## tidy_path (lines 103-179) -/

/-- The loops `while ((r = replace_substring(working, ..., pat, "/")) > 0)
changed = 1;` of lines 123-129. -/
def tidy_replace_while (pat : List Char) : Nat → List Char → Int → Int × List Char
  | 0, working, changed => (changed, working)
  | fuel + 1, working, changed =>
    let r := replace_substring working (PATH_MAX * 2) pat sSlash
    if r.1 > 0 then tidy_replace_while pat fuel r.2 1
    else (changed, r.2)

/-- Lines 147-150: `slash = p - 1; while (slash > working && *slash != '/')
slash--;`, started at offset `k`. -/
def find_slash_back (working : List Char) : Nat → Nat
  | 0 => 0
  | k + 1 => if working[k + 1]? = some '/' then k + 1 else find_slash_back working k

/-- The `for (;;)` loop of lines 135-160 that collapses "/../". -/
def collapse_loop : Nat → List Char → Int → Int × List Char
  | 0, working, changed => (changed, working)
  | fuel + 1, working, changed =>
    match strstr working sDotDotSlash with
    | none => (changed, working)
    | some p =>
      if p = 0 then
        collapse_loop fuel
          (replace_substring working (PATH_MAX * 2) sDotDotSlash sSlash).2 1
      else
        let slash := find_slash_back working (p - 1)
        if slash = 0 ∧ working[slash]? = some '/' then
          collapse_loop fuel
            (replace_substring working (PATH_MAX * 2) sDotDotSlash sSlash).2 1
        else
          collapse_loop fuel (working.take slash ++ working.drop (p + 3)) 1

/-- Lines 163-168: strip trailing slashes while more than one character is
left. -/
def strip_trailing : Nat → List Char → Int → Int × List Char
  | 0, working, changed => (changed, working)
  | fuel + 1, working, changed =>
    if working.length > 1 ∧ working.getLast? = some '/' then
      strip_trailing fuel working.dropLast 1
    else (changed, working)

/-- Lines 171-174: strip every leading "./". -/
def strip_leading : List Char → Int → Int × List Char
  | '.' :: '/' :: rest, _ => strip_leading rest 1
  | working, changed => (changed, working)

/-- `tidy_path(path)`: the returned flag and the new contents of `path`. -/
def tidy_path (path : List Char) : Int × List Char :=
  if path.isEmpty then (0, path)
  else
    let cap := PATH_MAX * 2
    let len := path.length
    let working0 :=
      if len + 2 < cap ∧ path.getLast? ≠ some '/' then (path ++ sSlash).take (cap - 1)
      else path.take (cap - 1)
    let r1 := tidy_replace_while sDotSlash (working0.length + 1) working0 0
    let r2 := tidy_replace_while sSlashSlash (r1.2.length + 1) r1.2 r1.1
    let r3 := collapse_loop (r2.2.length + 1) r2.2 r2.1
    let r4 := strip_trailing r3.2.length r3.2 r3.1
    let r5 := strip_leading r4.2 r4.1
    (r5.1, r5.2.take (PATH_MAX - 1))

/-! ## shorten_path (lines 186-213) -/

/-- The `for (;;)` loop of `shorten_path`: while a "../" is found, the base
is not "/" and a '/' follows behind it, cut from the "../" up to and
including that '/'. -/
def shorten_loop (base_path : List Char) : Nat → List Char → Int → Int × List Char
  | 0, link_path, shortened => (shortened, link_path)
  | fuel + 1, link_path, shortened =>
    match strstr link_path sUp with
    | none => (shortened, link_path)
    | some p =>
      if base_path = sSlash then (shortened, link_path)
      else
        match strchr (link_path.drop (p + 3)) '/' with
        | none => (shortened, link_path)
        | some q =>
          shorten_loop base_path fuel
            (link_path.take p ++ link_path.drop (p + 3 + q + 1)) 1

/-- `shorten_path(link_path, base_path)`: the returned flag and the new
contents of `link_path`.  Every pass removes at least four characters. -/
def shorten_path (link_path base_path : List Char) : Int × List Char :=
  if link_path.isEmpty ∨ base_path.isEmpty then (0, link_path)
  else shorten_loop base_path (link_path.length + 1) link_path 0

/-! ## build_relative_path (lines 219-307) -/

/-- The `strtok(..., "/")` loops of lines 244-257: the maximal runs of
characters other than '/', in order; `cur` is the token being read. -/
def strtok_all : List Char → List Char → List (List Char)
  | cur, [] => if cur.isEmpty then [] else [cur]
  | cur, c :: s =>
    if c = '/' then
      (if cur.isEmpty then strtok_all [] s else cur :: strtok_all [] s)
    else strtok_all (cur ++ [c]) s

/-- Lines 260-266: the length of the common prefix of the two token arrays. -/
def common_prefix_len : List (List Char) → List (List Char) → Nat
  | a :: from_tokens, b :: to_tokens =>
    if a = b then common_prefix_len from_tokens to_tokens + 1 else 0
  | _, _ => 0

/-- The conversion `(int)out_size` of line 274, for the 32-bit `int` of the
platforms the program is built for: the low 32 bits of the `size_t`, read as
a two's-complement number. -/
def int_cast (n : Nat) : Int :=
  if n % 4294967296 < 2147483648 then ((n % 4294967296 : Nat) : Int)
  else ((n % 4294967296 : Nat) : Int) - 4294967296

/-- Lines 273-279: append "../" `n` times; the flag is false when the bound
check of line 274 fails, a comparison of two `int`s, the right one being
`(int)out_size`.  Returns the flag, `out` and `needed_len`. -/
def emit_ups (out_size : Nat) : Nat → List Char → Nat → Bool × List Char × Nat
  | 0, out, needed_len => (true, out, needed_len)
  | n + 1, out, needed_len =>
    if (needed_len : Int) + 4 ≥ int_cast out_size then (false, out, needed_len)
    else emit_ups out_size n (out ++ sUp) (needed_len + 3)

/-- Lines 282-294: append the remaining tokens of `to`, with a '/' after
every token but the last.  The bound check of line 285 is made in `size_t`,
without a cast of `out_size`. -/
def emit_tokens (out_size : Nat) : List (List Char) → List Char → Nat → Bool × List Char × Nat
  | [], out, needed_len => (true, out, needed_len)
  | tok :: rest, out, needed_len =>
    if needed_len + tok.length + 2 ≥ out_size then (false, out, needed_len)
    else if rest.isEmpty then
      emit_tokens out_size rest (out ++ tok) (needed_len + tok.length)
    else
      emit_tokens out_size rest (out ++ tok ++ sSlash) (needed_len + tok.length + 1)

/-- `build_relative_path(from_dir, to_path, out, out_size)` with `realpath`
given by the environment: the return value and the contents of `out`
afterwards (`out` is the buffer as the caller passed it).  `needed_len`, an
`int`, is the length of a string made of at most PATH_MAX tokens cut from a
copy of fewer than PATH_MAX characters, each preceded by at most three
characters, so it stays far below 2^31 and its arithmetic is exact; the one
place where the width of `int` matters is the cast of `out_size` on
line 274, which `emit_ups` makes through `int_cast`. -/
def build_relative_path (realpath : List Char → Option (List Char))
    (from_dir to_path out : List Char) (out_size : Nat) : Int × List Char :=
  match realpath from_dir with
  | none => (-1, out)
  | some resolved_from =>
    match realpath to_path with
    | none => (-1, out)
    | some resolved_to =>
      let from_copy := resolved_from.take (PATH_MAX - 1)
      let to_copy := resolved_to.take (PATH_MAX - 1)
      let from_tokens := (strtok_all [] from_copy).take PATH_MAX
      let to_tokens := (strtok_all [] to_copy).take PATH_MAX
      let i := common_prefix_len from_tokens to_tokens
      let r1 := emit_ups out_size (from_tokens.length - i) [] 0
      if r1.1 = false then (-1, r1.2.1)
      else
        let r2 := emit_tokens out_size (to_tokens.drop i) r1.2.1 r1.2.2
        if r2.1 = false then (-1, r2.2.1)
        else if r2.2.1.isEmpty then
          (if out_size > 1 then (0, ['.']) else (-1, r2.2.1))
        else (0, r2.2.1)

/-! ## The environment, the options and the trace -/

/-- The file types the program tells apart (`S_ISLNK`, `S_ISDIR`, others). -/
inductive FileKind
  | lnk
  | dir
  | other
  deriving DecidableEq, Repr

/-- The fields of `struct stat` the program reads. -/
structure Stat where
  st_mode : FileKind
  st_dev : Nat
  deriving DecidableEq, Repr

/-- The system calls, as functions of their arguments.  `unlink` and
`symlink` say whether the call succeeds; `readdir` gives the names of a
directory in the order they are returned, or `none` when `opendir` fails. -/
structure Env where
  readlink : List Char → Option (List Char)
  stat : List Char → Option Stat
  lstat : List Char → Option Stat
  realpath : List Char → Option (List Char)
  readdir : List Char → Option (List (List Char))
  unlink : List Char → Bool
  symlink : List Char → List Char → Bool

/-- The global option flags of lines 29-36. -/
structure Config where
  g_verbose : Bool
  g_fix_links : Bool
  g_recurse : Bool
  g_delete : Bool
  g_shorten : Bool
  g_testing : Bool
  g_single_fs : Bool
  g_debug : Bool
  deriving DecidableEq, Repr

/-- The report lines written to standard output. -/
inductive Report
  | dangling
  | deleted
  | other_fs
  | absolute
  | relative_messy
  | relative
  | would_change
  | changed
  deriving DecidableEq, Repr

/-- What a run does, in order: a report line on stdout (`link -> value`), a
diagnostic on stderr about a path, the two mutating system calls, and the
calls of `fix_symlink` and `scan_directory` themselves.  The "[DEBUG]" trace
on stderr is left out. -/
inductive Event
  | print (r : Report) (link value : List Char)
  | diag (path : List Char)
  | sys_unlink (path : List Char)
  | sys_symlink (value path : List Char)
  | call_fix (path : List Char)
  | call_scan (path : List Char) (depth : Nat)
  deriving DecidableEq, Repr

/-! ## fix_symlink (lines 313-488) -/

/-- Lines 336-343 and 428-437: the path is cut behind its last '/', or
replaced by "./" when it has none. -/
def dir_part (path : List Char) : List Char :=
  match strrchr path '/' with
  | some i => path.take (i + 1)
  | none => ['.', '/']

/-- Lines 329-347: the path handed to `stat`. -/
def abs_resolved (symlink_path link_value : List Char) : List Char :=
  let cap := PATH_MAX * 2
  let raw :=
    if link_value.head? = some '/' then link_value.take (cap - 1)
    else
      let d := dir_part (symlink_path.take (cap - 1))
      d ++ link_value.take (cap - d.length - 1)
  (tidy_path raw).2

/-- Lines 384-401: the candidate after tidy and shorten, and whether it
counts as changed (`changed_messy || changed_short` after line 401). -/
def candidate (cfg : Config) (symlink_path link_value : List Char) : List Char × Bool :=
  let new_link0 := link_value.take PATH_MAX
  let t := tidy_path new_link0
  let s := if cfg.g_shorten then shorten_path t.2 symlink_path else (0, t.2)
  if s.2 = link_value then (s.2, false)
  else (s.2, decide (t.1 ≠ 0 ∨ s.1 ≠ 0))

/-- Lines 425-460: the conversion of an absolute link, applied to the
candidate `new_link`. -/
def convert (env : Env) (cfg : Config) (symlink_path link_value resolved new_link : List Char) :
    List Char :=
  if cfg.g_fix_links ∧ link_value.head? = some '/' then
    let symlink_dir := dir_part (symlink_path.take PATH_MAX)
    let r := build_relative_path env.realpath symlink_dir resolved new_link (PATH_MAX + 1)
    if r.1 < 0 then link_value.take PATH_MAX
    else if cfg.g_shorten then (shorten_path r.2 symlink_path).2
    else r.2
  else new_link

/-- Lines 403-415: the verbose report of the link's kind. -/
def verbose_report (cfg : Config) (symlink_path link_value : List Char) (changed : Bool) :
    List Event :=
  let is_abs := decide (link_value.head? = some '/')
  if cfg.g_verbose then
    if is_abs ∧ ¬ cfg.g_fix_links then [Event.print Report.absolute symlink_path link_value]
    else if ¬ is_abs then
      (if changed then [Event.print Report.relative_messy symlink_path link_value]
       else [Event.print Report.relative symlink_path link_value])
    else []
  else []

/-- Lines 373-488 of `fix_symlink`: what it does once `stat` has found the
target. -/
def fix_symlink_found (env : Env) (cfg : Config) (symlink_path : List Char) (base_dev : Nat)
    (link_value resolved : List Char) (stbuf : Stat) : List Event :=
  if cfg.g_single_fs ∧ stbuf.st_dev ≠ base_dev then
    (if cfg.g_verbose then [Event.print Report.other_fs symlink_path link_value] else [])
  else
    let c := candidate cfg symlink_path link_value
    let report := verbose_report cfg symlink_path link_value c.2
    if (¬ cfg.g_fix_links ∧ ¬ cfg.g_testing) ∧ ¬ c.2 then report
    else
      let new_link := convert env cfg symlink_path link_value resolved c.1
      if cfg.g_testing then
        report ++ [Event.print Report.would_change symlink_path new_link]
      else if new_link = link_value then report
      else if ¬ env.unlink symlink_path then
        report ++ [Event.sys_unlink symlink_path, Event.diag symlink_path]
      else if ¬ env.symlink new_link symlink_path then
        report ++ [Event.sys_unlink symlink_path, Event.sys_symlink new_link symlink_path,
          Event.diag symlink_path]
      else
        report ++ [Event.sys_unlink symlink_path, Event.sys_symlink new_link symlink_path,
          Event.print Report.changed symlink_path new_link]

/-- `fix_symlink(symlink_path, base_dev)`: the trace of what it does. -/
def fix_symlink (env : Env) (cfg : Config) (symlink_path : List Char) (base_dev : Nat) :
    List Event :=
  match env.readlink symlink_path with
  | none => [Event.diag symlink_path]
  | some value =>
    let link_value := value.take PATH_MAX
    let resolved := abs_resolved symlink_path link_value
    match env.stat resolved with
    | none =>
      (if cfg.g_verbose then [Event.print Report.dangling symlink_path link_value] else []) ++
      (if cfg.g_delete then
        (if env.unlink symlink_path then
          [Event.sys_unlink symlink_path, Event.print Report.deleted symlink_path link_value]
         else [Event.sys_unlink symlink_path, Event.diag symlink_path])
       else [])
    | some stbuf =>
      fix_symlink_found env cfg symlink_path base_dev link_value resolved stbuf

/-! ## scan_directory (lines 494-561) -/

/-- Lines 518-522: the directory path with a '/' appended when it has room
and does not end in one. -/
def with_slash (path : List Char) : List Char :=
  if path.length + 2 < PATH_MAX ∧ path.getLast? ≠ some '/' then path ++ sSlash else path

/-- Lines 531-532: the entry's name copied behind the directory path, cut to
the buffer. -/
def entry_path (path name : List Char) : List Char :=
  let dir := with_slash path
  (dir ++ name.take (PATH_MAX - dir.length)).take (PATH_MAX - 1)

/-- The names `readdir` yields that the loop does not skip (line 527). -/
def real_entries (names : List (List Char)) : List (List Char) :=
  names.filter (fun name => name ≠ ['.'] ∧ name ≠ ['.', '.'])

/-- The body of `scan_directory`.  The recursion is bounded by the depth
guard of line 498: `fuel` is `130 - depth`, so it reaches 0 only where the
guard fires. -/
def scan_fuel (env : Env) (cfg : Config) (base_dev : Nat) :
    Nat → List Char → Nat → List Event
  | 0, path, _ => [Event.diag path]
  | fuel + 1, path, depth =>
    if depth > 128 then [Event.diag path]
    else
      match env.readdir path with
      | none => [Event.call_scan path depth, Event.diag path]
      | some names =>
        Event.call_scan path depth ::
        (real_entries names).flatMap (fun name =>
          let child := entry_path path name
          match env.lstat child with
          | none => [Event.diag child]
          | some st =>
            if st.st_mode = FileKind.lnk then
              Event.call_fix child :: fix_symlink env cfg child base_dev
            else if st.st_mode = FileKind.dir ∧ cfg.g_recurse then
              (if ¬ cfg.g_single_fs ∨ st.st_dev = base_dev then
                scan_fuel env cfg base_dev fuel child (depth + 1)
               else [])
            else [])

/-- `scan_directory(path, base_dev, depth)`: the trace of the walk. -/
def scan_directory (env : Env) (cfg : Config) (path : List Char) (base_dev : Nat)
    (depth : Nat) : List Event :=
  scan_fuel env cfg base_dev (130 - depth) path depth

/-! ## Reference notions the claims compare the code with -/

/-- One step of lexical normalisation over the components kept so far: a "."
is dropped, a ".." removes the nearest preceding remaining component (and is
absorbed when none is left), any other component is kept. -/
def lexical_step (stack : List (List Char)) (c : List Char) : List (List Char) :=
  if c = ['.'] then stack
  else if c = ['.', '.'] then stack.dropLast
  else stack ++ [c]

/-- The absolute path with the given components: "/" for none, otherwise
every component preceded by a '/'. -/
def render (comps : List (List Char)) : List Char :=
  if comps.isEmpty then ['/'] else comps.flatMap (fun c => '/' :: c)

/-- Lexical normalisation of an absolute path, in the words of the claims:
empty and "." components are dropped, every ".." removes the nearest
preceding remaining component, and a ".." at the root is absorbed. -/
def lexical_normalize (p : List Char) : List Char :=
  render ((strtok_all [] p).foldl lexical_step [])

/-- Path lookup of the operating system on a filesystem without symbolic
links, given by the component sequences of its files and directories (the
root is always there): "." stays, ".." goes to the parent, a name goes to
that entry when it exists. -/
def lookup (tree : List (List (List Char))) :
    List (List Char) → List (List Char) → Option (List (List Char))
  | cur, [] => some cur
  | cur, c :: rest =>
    if c = ['.'] then lookup tree cur rest
    else if c = ['.', '.'] then lookup tree cur.dropLast rest
    else if (cur ++ [c]) ∈ tree then lookup tree (cur ++ [c]) rest
    else none

/-- The location a link value denotes: looked up from the root when the
value begins with '/', from the directory holding the link otherwise. -/
def denotes (tree : List (List (List Char))) (link value : List Char) :
    Option (List (List Char)) :=
  lookup tree
    (if value.head? = some '/' then [] else (strtok_all [] link).dropLast)
    (strtok_all [] value)

/-- The environment of a one-device filesystem without symbolic links on the
way, holding one link `link` with value `value`; both mutating calls
succeed. -/
def tree_env (tree : List (List (List Char))) (link value : List Char) : Env where
  readlink := fun p => if p = link then some value else none
  stat := fun p => (lookup tree [] (strtok_all [] p)).map (fun _ => ⟨FileKind.other, 0⟩)
  lstat := fun p =>
    if p = link then some ⟨FileKind.lnk, 0⟩
    else (lookup tree [] (strtok_all [] p)).map (fun _ => ⟨FileKind.dir, 0⟩)
  realpath := fun p => (lookup tree [] (strtok_all [] p)).map render
  readdir := fun _ => none
  unlink := fun _ => true
  symlink := fun _ _ => true

/-- All options off, but for the single-filesystem default. -/
def default_config : Config :=
  ⟨false, false, false, false, false, false, true, false⟩

/-- The tree of the example: /a, /b and the link /a/l. -/
def tree_ab : List (List (List Char)) :=
  [["a".toList], ["b".toList], ["a".toList, "l".toList]]

/-- The tree of the scenario: /tree/a, /tree/b/file and the link
/tree/a/link1. -/
def tree_scenario : List (List (List Char)) :=
  [["tree".toList], ["tree".toList, "a".toList], ["tree".toList, "b".toList],
   ["tree".toList, "b".toList, "file".toList],
   ["tree".toList, "a".toList, "link1".toList]]

/-- The events that mark a call of `fix_symlink` or `scan_directory`. -/
def Event.is_call : Event → Bool
  | Event.call_fix _ => true
  | Event.call_scan _ _ => true
  | _ => false

/-- The directories that lie on the base device all the way down from the
start of the walk: `Reach env base_dev root dir depth` holds for `root` at
depth 0, and for an entry of a directory already reached when `lstat` shows a
directory on `base_dev`. -/
inductive Reach (env : Env) (base_dev : Nat) (root : List Char) : List Char → Nat → Prop
  | start : Reach env base_dev root root 0
  | step (dir : List Char) (depth : Nat) (names : List (List Char)) (name : List Char)
      (st : Stat) :
      Reach env base_dev root dir depth →
      env.readdir dir = some names → name ∈ real_entries names →
      env.lstat (entry_path dir name) = some st → st.st_mode = FileKind.dir →
      st.st_dev = base_dev →
      Reach env base_dev root (entry_path dir name) (depth + 1)

/-- A directory /r on device 0 holding the link /r/l and the directory /r/m,
which is on device 1 and holds the link /r/m/k. -/
def mount_env : Env where
  readlink := fun _ => none
  stat := fun _ => none
  lstat := fun p =>
    if p = "/r/l".toList then some ⟨FileKind.lnk, 0⟩
    else if p = "/r/m".toList then some ⟨FileKind.dir, 1⟩
    else if p = "/r/m/k".toList then some ⟨FileKind.lnk, 1⟩
    else none
  realpath := fun _ => none
  readdir := fun p =>
    if p = "/r".toList then some [".".toList, "..".toList, "l".toList, "m".toList]
    else if p = "/r/m".toList then some [".".toList, "..".toList, "k".toList]
    else none
  unlink := fun _ => true
  symlink := fun _ _ => true

/-- `q` is the path of an entry of the directory `dir`: the path of the
directory, a '/' unless that path ends in one, and one non-empty name without
a '/'. -/
def entry_of (dir q : List Char) : Prop :=
  ∃ name, name ≠ [] ∧ '/' ∉ name ∧
    (q = dir ++ '/' :: name ∨ (dir.getLast? = some '/' ∧ q = dir ++ name))

/-- The directories of the tree that lie on the base device all the way down
from the start of the walk: the start itself, and every entry of such a
directory that `lstat` shows as a directory on `base_dev`. -/
inductive Inside (env : Env) (base_dev : Nat) (root : List Char) : List Char → Prop
  | start : Inside env base_dev root root
  | step (dir q : List Char) (st : Stat) :
      Inside env base_dev root dir → entry_of dir q →
      env.lstat q = some st → st.st_mode = FileKind.dir → st.st_dev = base_dev →
      Inside env base_dev root q

/-- A directory path of 3840 characters: fifteen components of 255
characters each. -/
@[irreducible]
def long_parent : List Char :=
  (List.replicate 15 ('/' :: List.replicate 255 'a')).flatten

/-- The directory "bbb...b" (253 characters) in `long_parent`: a path of
PATH_MAX - 2 characters. -/
@[irreducible]
def long_dir : List Char :=
  long_parent ++ '/' :: List.replicate 253 'b'

/-- The entry "bbb...bx" of `long_parent`, next to `long_dir`. -/
@[irreducible]
def long_sibling : List Char :=
  long_parent ++ '/' :: (List.replicate 253 'b' ++ ['x'])

/-- The directory `long_dir` is a mount point: it is on device 0 and holds
one entry, "x"; its parent `long_parent` is on device 1 and holds, next to
`long_dir`, the dangling symbolic link `long_sibling`. -/
def overflow_env : Env where
  readlink := fun p => if p = long_sibling then some ['t'] else none
  stat := fun _ => none
  lstat := fun p =>
    if p = long_dir then some ⟨FileKind.dir, 0⟩
    else if p = long_parent then some ⟨FileKind.dir, 1⟩
    else if p = long_sibling then some ⟨FileKind.lnk, 1⟩
    else none
  realpath := fun _ => none
  readdir := fun p =>
    if p = long_dir then some [['.'], ['.', '.'], ['x']]
    else none
  unlink := fun _ => true
  symlink := fun _ _ => true

/-- One cut: `R` keeps a beginning `A` of `s` (empty, or followed by a '/'
in `s`) and an end of `s` that starts with '/'. -/
def Cut (s R : List Char) : Prop :=
  R.length < s.length ∧
  ∃ A B, R = A ++ '/' :: B ∧ ('/' :: B) <:+ s ∧ (A = [] ∨ (A ++ ['/']) <+: s)

/-- The working string after the three collapsing loops: it ends in '/' and
holds none of "//", "/./" and "/../". -/
def Clean (w : List Char) : Prop :=
  w.getLast? = some '/' ∧ ¬ sSlashSlash <:+: w ∧ ¬ sDotSlash <:+: w ∧
    ¬ sDotDotSlash <:+: w

/-- The scenario with the link /tree/a/link1 pointing to /tree/b/file, where
`realpath` fails. -/
def scenario_no_realpath : Env :=
  { tree_env tree_scenario "/tree/a/link1".toList "/tree/b/file".toList with
    realpath := fun _ => none }

/-- The scenario with the link /tree/a/link1 pointing to /tree/b/file, where
`unlink` fails. -/
def scenario_no_unlink : Env :=
  { tree_env tree_scenario "/tree/a/link1".toList "/tree/b/file".toList with
    unlink := fun _ => false }

/-- The candidate value fix_symlink holds at line 462, after tidy, shorten and
the conversion of an absolute link, for the raw target `link_value`. -/
def final_candidate (env : Env) (cfg : Config) (symlink_path link_value : List Char) :
    List Char :=
  convert env cfg symlink_path link_value (abs_resolved symlink_path link_value)
    (candidate cfg symlink_path link_value).1

/-- The path made of `n` copies of "/../". -/
def dotdots (n : Nat) : List Char :=
  (List.replicate n sDotDotSlash).flatten

/-- The tree /x/y/z with the link /x/y/z/l. -/
def tree_xyz : List (List (List Char)) :=
  [["x".toList], ["x".toList, "y".toList], ["x".toList, "y".toList, "z".toList],
   ["x".toList, "y".toList, "z".toList, "l".toList]]

/-! ## Theorems -/

/-! ### fix_symlink: the report lines, test mode and the scenarios -/

/-- The verbose report consists of report lines only. -/
theorem verbose_report_prints (cfg : Config) (symlink_path link_value : List Char)
    (changed : Bool) :
    ∀ e ∈ verbose_report cfg symlink_path link_value changed,
      ∃ r l w, e = Event.print r l w := by
  intro e he
  dsimp only [verbose_report] at he
  repeat' split at he
  all_goals first
    | exact ⟨_, _, _, List.mem_singleton.mp he⟩
    | simp at he

/-- In test mode, a link whose target was found yields report lines only. -/
theorem fix_symlink_found_testing (env : Env) (cfg : Config) (symlink_path : List Char)
    (base_dev : Nat) (link_value resolved : List Char) (stbuf : Stat)
    (ht : cfg.g_testing = true) :
    ∀ e ∈ fix_symlink_found env cfg symlink_path base_dev link_value resolved stbuf,
      ∃ r l w, e = Event.print r l w := by
  intro e he
  dsimp only [fix_symlink_found] at he
  have hv := verbose_report_prints cfg symlink_path link_value
    (candidate cfg symlink_path link_value).2
  generalize verbose_report cfg symlink_path link_value
    (candidate cfg symlink_path link_value).2 = report at he hv
  generalize convert env cfg symlink_path link_value resolved
    (candidate cfg symlink_path link_value).1 = new_link at he
  simp only [ht] at he
  split_ifs at he
  · simp at he; exact ⟨_, _, _, he⟩
  · simp at he
  · exact hv e he
  · rcases List.mem_append.mp he with h | h
    · exact hv e h
    · simp at h; exact ⟨_, _, _, h⟩


/-- C1: on "/a/../../b" tidy_path leaves "/a/b", while the lexical
normalisation of that path is "/b"; already "/a/../b" is left as "/a/b". -/
theorem tidy_path_root_parent :
    tidy_path "/a/../../b".toList = (1, "/a/b".toList) ∧
    lexical_normalize "/a/../../b".toList = "/b".toList ∧
    tidy_path "/a/../b".toList = (1, "/a/b".toList) ∧
    lexical_normalize "/a/../b".toList = "/b".toList := by
  decide

/-- C2: for D = "/a" and T = "/b", with realpath the identity,
build_relative_path writes "../b", and tidy_path of "/a" ++ "/" ++ "../b" is
"/a/b", not tidy_path of "/b". -/
theorem relative_round_trip_fails :
    build_relative_path some "/a".toList "/b".toList [] (PATH_MAX + 1)
      = (0, "../b".toList) ∧
    (tidy_path ("/a".toList ++ "/".toList ++ "../b".toList)).2 = "/a/b".toList ∧
    (tidy_path "/b".toList).2 = "/b".toList := by
  decide

/-- C3: the link /a/l with value "../b" denotes /b, which exists, and yet
fix_symlink with delete_dangling set finds it dangling and unlinks it. -/
theorem existing_target_deleted :
    denotes tree_ab "/a/l".toList "../b".toList = some ["b".toList] ∧
    fix_symlink (tree_env tree_ab "/a/l".toList "../b".toList)
      { default_config with g_delete := true, g_verbose := true } "/a/l".toList 0
      = [Event.print Report.dangling "/a/l".toList "../b".toList,
         Event.sys_unlink "/a/l".toList,
         Event.print Report.deleted "/a/l".toList "../b".toList] := by
  decide

/-- C4: with test_mode and delete_dangling both set, fix_symlink unlinks the
dangling link /a/l (lines 362-369, guarded by g_delete alone), where the
claim, the usage text of -t ("but do not modify") and the gate of line 462
for the rewrite all say that test mode changes nothing. -/
theorem testing_unlinks_dangling :
    fix_symlink (tree_env tree_ab "/a/l".toList "nowhere".toList)
      { default_config with g_testing := true, g_delete := true } "/a/l".toList 0
      = [Event.sys_unlink "/a/l".toList,
         Event.print Report.deleted "/a/l".toList "nowhere".toList] := by
  decide

/-- The extent of the defect of the dangling branch: with test_mode set
fix_symlink never creates a link, and the unlink of lines 362-369, on a link
whose target probe fails while delete_dangling is set, is the only change it
can make; a link whose target probe succeeds is never touched. -/
theorem testing_frame (env : Env) (cfg : Config) (symlink_path : List Char) (base_dev : Nat)
    (ht : cfg.g_testing = true) :
    (∀ v p, Event.sys_symlink v p ∉ fix_symlink env cfg symlink_path base_dev) ∧
    (∀ p, Event.sys_unlink p ∈ fix_symlink env cfg symlink_path base_dev →
      cfg.g_delete = true ∧
      ∃ value, env.readlink symlink_path = some value ∧
        env.stat (abs_resolved symlink_path (value.take PATH_MAX)) = none) := by
  unfold fix_symlink
  cases hr : env.readlink symlink_path with
  | none => simp
  | some value =>
    cases hs : env.stat (abs_resolved symlink_path (value.take PATH_MAX)) with
    | none =>
      constructor
      · intro v p
        simp only [hs]
        split <;> split <;> (try split) <;> simp
      · intro p hp
        simp only [hs] at hp
        refine ⟨?_, value, rfl, hs⟩
        by_contra hd
        simp only [Bool.not_eq_true] at hd
        simp [hd] at hp
    | some stbuf =>
      have key : ∀ e ∈ fix_symlink_found env cfg symlink_path base_dev
          (value.take PATH_MAX) (abs_resolved symlink_path (value.take PATH_MAX)) stbuf,
          ∃ r l w, e = Event.print r l w :=
        fix_symlink_found_testing env cfg symlink_path base_dev _ _ stbuf ht
      simp only [hs]
      constructor
      · intro v p hp
        obtain ⟨r, l, w, h⟩ := key _ hp
        cases h
      · intro p hp
        obtain ⟨r, l, w, h⟩ := key _ hp
        cases h

/-- An instance of testing_frame: test_mode with every other option set, on
the link /tree/a/link1 of the scenario. -/
theorem testing_frame_witness :
    (∀ v p, Event.sys_symlink v p ∉
      fix_symlink (tree_env tree_scenario "/tree/a/link1".toList "/tree/a/../b/file".toList)
        ⟨true, true, true, true, true, true, true, true⟩ "/tree/a/link1".toList 0) ∧
    (∀ p, Event.sys_unlink p ∈
      fix_symlink (tree_env tree_scenario "/tree/a/link1".toList "/tree/a/../b/file".toList)
        ⟨true, true, true, true, true, true, true, true⟩ "/tree/a/link1".toList 0 →
      (⟨true, true, true, true, true, true, true, true⟩ : Config).g_delete = true ∧
      ∃ value, (tree_env tree_scenario "/tree/a/link1".toList
          "/tree/a/../b/file".toList).readlink "/tree/a/link1".toList = some value ∧
        (tree_env tree_scenario "/tree/a/link1".toList "/tree/a/../b/file".toList).stat
          (abs_resolved "/tree/a/link1".toList (value.take PATH_MAX)) = none) :=
  testing_frame _ _ _ _ rfl

/-- C5: with fix_links and shorten set, the link /a/l with value "/" is
rewritten to "../" by a first pass, and a second pass over the value "../"
rewrites it again, to "..". -/
theorem second_pass_rewrites :
    fix_symlink (tree_env tree_ab "/a/l".toList "/".toList)
      { default_config with g_fix_links := true, g_shorten := true } "/a/l".toList 0
      = [Event.sys_unlink "/a/l".toList,
         Event.sys_symlink "../".toList "/a/l".toList,
         Event.print Report.changed "/a/l".toList "../".toList] ∧
    fix_symlink (tree_env tree_ab "/a/l".toList "../".toList)
      { default_config with g_fix_links := true, g_shorten := true } "/a/l".toList 0
      = [Event.sys_unlink "/a/l".toList,
         Event.sys_symlink "..".toList "/a/l".toList,
         Event.print Report.changed "/a/l".toList "..".toList] := by
  decide

/-- C9 as stated fails: with fix_links set and the other options at their
defaults, the link /tree/a/link1 with value /tree/a/../b/file is rewritten to
"../b/file", which begins with "../" and is not "b/file". -/
theorem scenario_keeps_parent_step :
    fix_symlink (tree_env tree_scenario "/tree/a/link1".toList "/tree/a/../b/file".toList)
      { default_config with g_fix_links := true } "/tree/a/link1".toList 0
      = [Event.sys_unlink "/tree/a/link1".toList,
         Event.sys_symlink "../b/file".toList "/tree/a/link1".toList,
         Event.print Report.changed "/tree/a/link1".toList "../b/file".toList] ∧
    sUp.isPrefixOf "../b/file".toList = true ∧
    "../b/file".toList ≠ "b/file".toList := by
  decide

/-- C9, amended: with fix_links set and test_mode off, the link
/tree/a/link1 with value /tree/a/../b/file is rewritten to "../b/file" when
shorten is off and to "file" when shorten is on, whatever the other
options. -/
theorem scenario_rewrite (cfg : Config) (hc : cfg.g_fix_links = true)
    (ht : cfg.g_testing = false) :
    Event.sys_symlink (if cfg.g_shorten then "file".toList else "../b/file".toList)
        "/tree/a/link1".toList ∈
      fix_symlink (tree_env tree_scenario "/tree/a/link1".toList "/tree/a/../b/file".toList)
        cfg "/tree/a/link1".toList 0 ∧
    Event.print Report.changed "/tree/a/link1".toList
        (if cfg.g_shorten then "file".toList else "../b/file".toList) ∈
      fix_symlink (tree_env tree_scenario "/tree/a/link1".toList "/tree/a/../b/file".toList)
        cfg "/tree/a/link1".toList 0 := by
  obtain ⟨v, c, r, d, s, t, o, x⟩ := cfg
  simp only at hc ht
  subst hc ht
  cases v <;> cases r <;> cases d <;> cases s <;> cases o <;> cases x <;> decide

/-- C9 witness: the scenario with fix_links alone. -/
theorem scenario_rewrite_witness :
    Event.sys_symlink "../b/file".toList "/tree/a/link1".toList ∈
      fix_symlink (tree_env tree_scenario "/tree/a/link1".toList "/tree/a/../b/file".toList)
        { default_config with g_fix_links := true } "/tree/a/link1".toList 0 ∧
    Event.print Report.changed "/tree/a/link1".toList "../b/file".toList ∈
      fix_symlink (tree_env tree_scenario "/tree/a/link1".toList "/tree/a/../b/file".toList)
        { default_config with g_fix_links := true } "/tree/a/link1".toList 0 :=
  scenario_rewrite { default_config with g_fix_links := true } rfl rfl

/-- C10: on "a" tidy_path returns a non-zero flag although it leaves "a"
unchanged; on the empty string it returns zero and leaves it unchanged. -/
theorem tidy_path_flag_on_clean_path :
    tidy_path "a".toList = (1, "a".toList) ∧
    tidy_path [] = (0, []) := by
  decide

/-! ### build_relative_path on canonical paths -/

theorem strtok_all_slash (cur s : List Char) :
    strtok_all cur ('/' :: s) =
      if cur.isEmpty then strtok_all [] s else cur :: strtok_all [] s := by
  rw [strtok_all]; simp

theorem strtok_all_char (cur s : List Char) (x : Char) (hx : x ≠ '/') :
    strtok_all cur (x :: s) = strtok_all (cur ++ [x]) s := by
  rw [strtok_all]; simp [hx]

theorem strtok_all_append (c : List Char) (hc : '/' ∉ c) (cur s : List Char) :
    strtok_all cur (c ++ s) = strtok_all (cur ++ c) s := by
  induction c generalizing cur with
  | nil => simp
  | cons x c ih =>
    have hx : x ≠ '/' := fun h => hc (by simp [h])
    have hc2 : '/' ∉ c := fun h => hc (by simp [h])
    rw [List.cons_append, strtok_all_char _ _ _ hx, ih hc2]
    simp

/-- The components preceded by a '/' each. -/
theorem strtok_all_flat (F : List (List Char)) (hF : ∀ c ∈ F, c ≠ [] ∧ '/' ∉ c)
    (cur : List Char) (hcur : cur ≠ []) :
    strtok_all cur (F.flatMap (fun c => '/' :: c)) = cur :: F := by
  induction F generalizing cur with
  | nil => simp [strtok_all, hcur]
  | cons c F ih =>
    have h1 := hF c (by simp)
    have : cur.isEmpty = false := by
      cases cur with
      | nil => exact absurd rfl hcur
      | cons _ _ => rfl
    rw [List.flatMap_cons, List.cons_append, strtok_all_slash, this]
    simp only [Bool.false_eq_true, if_false]
    rw [strtok_all_append c h1.2, List.nil_append,
      ih (fun c hc => hF c (by simp [hc])) c h1.1]

theorem strtok_all_render (F : List (List Char)) (hF : ∀ c ∈ F, c ≠ [] ∧ '/' ∉ c) :
    strtok_all [] (render F) = F := by
  cases F with
  | nil => simp [render, strtok_all]
  | cons c F =>
    have h1 := hF c (by simp)
    rw [render]
    simp only [List.isEmpty_cons, Bool.false_eq_true, if_false]
    rw [List.flatMap_cons, List.cons_append, strtok_all_slash]
    simp only [List.isEmpty_nil, if_true]
    rw [strtok_all_append c h1.2, List.nil_append,
      strtok_all_flat F (fun c hc => hF c (by simp [hc])) c h1.1]

theorem length_le_render (F : List (List Char)) : F.length ≤ (render F).length := by
  unfold render
  split
  · rename_i h; simp at h; simp [h]
  · clear * -
    induction F with
    | nil => simp
    | cons c F ih =>
      rw [List.flatMap_cons, List.length_append, List.length_cons, List.length_cons]
      omega

theorem int_cast_le (n : Nat) : int_cast n ≤ (n : Int) := by
  unfold int_cast
  have h := Nat.mod_le n 4294967296
  split <;> omega

theorem int_cast_small (n : Nat) (h : n < 2147483648) : int_cast n = (n : Int) := by
  unfold int_cast
  have e : n % 4294967296 = n := Nat.mod_eq_of_lt (by omega)
  rw [e, if_pos h]

theorem emit_ups_ok (out_size n : Nat) (out : List Char) (needed : Nat)
    (hint : out_size < 2147483648)
    (h : needed + 3 * n + 1 < out_size ∨ n = 0) :
    emit_ups out_size n out needed =
      (true, out ++ (List.replicate n sUp).flatten, needed + 3 * n) := by
  induction n generalizing out needed with
  | zero => simp [emit_ups]
  | succ n ih =>
    have h' : needed + 3 * (n + 1) + 1 < out_size := by
      rcases h with h | h
      · exact h
      · omega
    rw [emit_ups, if_neg (by rw [int_cast_small _ hint]; omega),
      ih _ _ (Or.inl (by omega))]
    simp [List.replicate_succ, List.append_assoc]
    omega

theorem emit_tokens_ok (out_size : Nat) (toks : List (List Char)) (out : List Char)
    (needed : Nat)
    (h : needed + (sSlash.intercalate toks).length + 2 < out_size) :
    emit_tokens out_size toks out needed =
      (true, out ++ sSlash.intercalate toks,
        needed + (sSlash.intercalate toks).length) := by
  induction toks generalizing out needed with
  | nil => simp [emit_tokens, List.intercalate]
  | cons t rest ih =>
    cases rest with
    | nil =>
      have e : sSlash.intercalate [t] = t := by simp [List.intercalate]
      rw [e] at h ⊢
      rw [emit_tokens, if_neg (by omega)]
      simp [emit_tokens]
    | cons t2 rest =>
      have e : sSlash.intercalate (t :: t2 :: rest)
          = t ++ sSlash ++ sSlash.intercalate (t2 :: rest) := by
        simp [List.intercalate, List.intersperse]
      rw [e] at h ⊢
      simp only [List.length_append] at h
      have hs : sSlash.length = 1 := rfl
      rw [emit_tokens, if_neg (by omega)]
      simp only [List.isEmpty_cons, Bool.false_eq_true, if_false]
      rw [ih _ _ (by omega)]
      simp [List.append_assoc]
      omega

theorem common_len_eq (F T : List (List Char)) (k : Nat)
    (hk : F.take k = T.take k) (hF : k ≤ F.length) (hT : k ≤ T.length)
    (hne : ∀ a b, F[k]? = some a → T[k]? = some b → a ≠ b) :
    common_prefix_len F T = k := by
  induction k generalizing F T with
  | zero =>
    cases F with
    | nil => simp [common_prefix_len]
    | cons a F =>
      cases T with
      | nil => simp [common_prefix_len]
      | cons b T =>
        have := hne a b (by simp) (by simp)
        simp [common_prefix_len, this]
  | succ k ih =>
    cases F with
    | nil => simp at hF
    | cons a F =>
      cases T with
      | nil => simp at hT
      | cons b T =>
        simp only [List.take_succ_cons, List.cons.injEq] at hk
        simp only [List.length_cons, Nat.add_le_add_iff_right] at hF hT
        rw [common_prefix_len, if_pos hk.1, ih F T hk.2 hF hT]
        intro x y hx hy
        exact hne x y (by simpa using hx) (by simpa using hy)

/-- C7: for canonical absolute paths with component sequences `F` and `T`
whose longest common prefix has length `k`, with realpath the identity on
both and a buffer that holds the result and three more bytes, of a size
`out_size` that `(int)out_size` of line 274 keeps (below 2^31, as is the
PATH_MAX + 1 the program passes), build_relative_path returns 0 and writes
`F.length - k` copies of "../" followed by the components `T[k..]` joined by
"/", or "." when that string is empty. -/
theorem build_relative_path_spec (realpath : List Char → Option (List Char))
    (F T : List (List Char)) (k : Nat) (out : List Char) (out_size : Nat)
    (hF : ∀ c ∈ F, c ≠ [] ∧ '/' ∉ c) (hT : ∀ c ∈ T, c ≠ [] ∧ '/' ∉ c)
    (hlenF : (render F).length < PATH_MAX) (hlenT : (render T).length < PATH_MAX)
    (hrF : realpath (render F) = some (render F))
    (hrT : realpath (render T) = some (render T))
    (hk : F.take k = T.take k) (hkF : k ≤ F.length) (hkT : k ≤ T.length)
    (hne : ∀ a b, F[k]? = some a → T[k]? = some b → a ≠ b)
    (hsize : ((List.replicate (F.length - k) sUp).flatten
      ++ sSlash.intercalate (T.drop k)).length + 3 ≤ out_size)
    (hint : out_size < 2147483648) :
    build_relative_path realpath (render F) (render T) out out_size =
      (0, if (List.replicate (F.length - k) sUp).flatten
              ++ sSlash.intercalate (T.drop k) = [] then ['.']
          else (List.replicate (F.length - k) sUp).flatten
              ++ sSlash.intercalate (T.drop k)) := by
  have hFl := length_le_render F
  have hTl := length_le_render T
  have hups : ((List.replicate (F.length - k) sUp).flatten).length = 3 * (F.length - k) := by
    simp [sUp]; omega
  simp only [List.length_append, hups] at hsize
  unfold build_relative_path
  simp only [hrF, hrT]
  have e1 : (render F).take (PATH_MAX - 1) = render F := List.take_of_length_le (by omega)
  have e2 : (render T).take (PATH_MAX - 1) = render T := List.take_of_length_le (by omega)
  have e3 : F.take PATH_MAX = F := List.take_of_length_le (by omega)
  have e4 : T.take PATH_MAX = T := List.take_of_length_le (by omega)
  simp only [e1, e2, strtok_all_render F hF, strtok_all_render T hT, e3, e4,
    common_len_eq F T k hk hkF hkT hne]
  rw [emit_ups_ok _ _ _ _ hint (Or.inl (by omega))]
  simp only [Bool.true_eq_false, if_false, List.nil_append, Nat.zero_add]
  rw [emit_tokens_ok _ _ _ _ (by omega)]
  simp only [Bool.true_eq_false, if_false]
  split
  · rename_i h
    rw [if_pos (by omega), if_pos (by simpa using h)]
  · rename_i h
    rw [if_neg (by simpa using h)]

/-- C7 witness: from /tree/a to /tree/b/file the result is "../b/file". -/
theorem build_relative_path_spec_witness :
    build_relative_path some (render ["tree".toList, "a".toList])
        (render ["tree".toList, "b".toList, "file".toList]) [] (PATH_MAX + 1) =
      (0, if (List.replicate (["tree".toList, "a".toList].length - 1) sUp).flatten
              ++ sSlash.intercalate (["tree".toList, "b".toList, "file".toList].drop 1) = []
          then ['.']
          else (List.replicate (["tree".toList, "a".toList].length - 1) sUp).flatten
              ++ sSlash.intercalate (["tree".toList, "b".toList, "file".toList].drop 1)) :=
  build_relative_path_spec some ["tree".toList, "a".toList]
    ["tree".toList, "b".toList, "file".toList] 1 [] (PATH_MAX + 1)
    (by decide) (by decide) (by decide) (by decide) rfl rfl (by decide) (by decide)
    (by decide) (by intro a b ha hb; cases ha; cases hb; decide) (by decide)
    (by decide)

/-- What the cast of line 274 does to a buffer size of 2^31: `(int)out_size`
is negative, the first "../" is refused and build_relative_path returns -1,
although the result "../b" would fit. -/
theorem build_relative_path_int_cast :
    int_cast 2147483648 = -2147483648 ∧
    build_relative_path some "/tree/a".toList "/tree/b".toList [] 2147483648 = (-1, []) := by
  decide

/-! ### scan_directory under the single-filesystem rule -/

theorem fix_symlink_found_no_call (env : Env) (cfg : Config) (symlink_path : List Char)
    (base_dev : Nat) (link_value resolved : List Char) (stbuf : Stat) :
    ∀ e ∈ fix_symlink_found env cfg symlink_path base_dev link_value resolved stbuf,
      e.is_call = false := by
  intro e he
  dsimp only [fix_symlink_found] at he
  have hv : ∀ e ∈ verbose_report cfg symlink_path link_value
      (candidate cfg symlink_path link_value).2, e.is_call = false := by
    intro e h
    obtain ⟨r, l, w, rfl⟩ := verbose_report_prints _ _ _ _ e h
    rfl
  generalize verbose_report cfg symlink_path link_value
    (candidate cfg symlink_path link_value).2 = report at he hv
  generalize convert env cfg symlink_path link_value resolved
    (candidate cfg symlink_path link_value).1 = new_link at he
  split_ifs at he
  all_goals first
    | exact hv e he
    | (rcases List.mem_append.mp he with h | h
       · exact hv e h
       · simp at h
         rcases h with h | h | h <;> subst h <;> rfl)
    | (rcases List.mem_append.mp he with h | h
       · exact hv e h
       · simp at h
         rcases h with h | h <;> subst h <;> rfl)
    | (rcases List.mem_append.mp he with h | h
       · exact hv e h
       · simp at h
         subst h; rfl)
    | (simp at he; subst he; rfl)
    | simp at he

theorem fix_symlink_no_call (env : Env) (cfg : Config) (symlink_path : List Char)
    (base_dev : Nat) :
    ∀ e ∈ fix_symlink env cfg symlink_path base_dev, e.is_call = false := by
  intro e he
  unfold fix_symlink at he
  split at he
  · simp at he; subst he; rfl
  · dsimp only at he
    split at he
    · rcases List.mem_append.mp he with h | h
      · split at h
        · simp at h; subst h; rfl
        · simp at h
      · split at h
        · split at h <;> simp at h <;> rcases h with h | h <;> subst h <;> rfl
        · simp at h
    · exact fix_symlink_found_no_call _ _ _ _ _ _ _ e he

theorem scan_fuel_reach (env : Env) (cfg : Config) (base_dev : Nat) (root : List Char)
    (hs : cfg.g_single_fs = true) (fuel : Nat) (path : List Char) (depth : Nat)
    (hp : Reach env base_dev root path depth) :
    ∀ e ∈ scan_fuel env cfg base_dev fuel path depth,
      (∀ p d, e = Event.call_scan p d → Reach env base_dev root p d) ∧
      (∀ q, e = Event.call_fix q → ∃ dir depth names name,
        Reach env base_dev root dir depth ∧ env.readdir dir = some names ∧
        name ∈ real_entries names ∧ q = entry_path dir name) := by
  induction fuel generalizing path depth with
  | zero =>
    intro e he
    simp [scan_fuel] at he
    subst he
    exact ⟨fun _ _ h => (by cases h), fun _ h => (by cases h)⟩
  | succ fuel ih =>
    intro e he
    rw [scan_fuel] at he
    split_ifs at he with hd
    · simp at he
      subst he
      exact ⟨fun _ _ h => (by cases h), fun _ h => (by cases h)⟩
    · cases hrd : env.readdir path with
      | none =>
        simp only [hrd] at he
        simp at he
        rcases he with he | he <;> subst he
        · exact ⟨fun _ _ h => (by cases h; exact hp), fun _ h => (by cases h)⟩
        · exact ⟨fun _ _ h => (by cases h), fun _ h => (by cases h)⟩
      | some names =>
        simp only [hrd] at he
        rcases List.mem_cons.mp he with he | he
        · subst he
          exact ⟨fun _ _ h => (by cases h; exact hp), fun _ h => (by cases h)⟩
        · obtain ⟨name, hname, he⟩ := List.mem_flatMap.mp he
          cases hl : env.lstat (entry_path path name) with
          | none =>
            simp only [hl] at he
            simp at he
            subst he
            exact ⟨fun _ _ h => (by cases h), fun _ h => (by cases h)⟩
          | some st =>
            simp only [hl] at he
            split_ifs at he with h1 h2 h3
            · rcases List.mem_cons.mp he with he | he
              · subst he
                refine ⟨fun _ _ h => (by cases h), fun q h => ?_⟩
                cases h
                exact ⟨path, depth, names, name, hp, hrd, hname, rfl⟩
              · have := fix_symlink_no_call _ _ _ _ e he
                exact ⟨fun _ _ h => (by subst h; cases this),
                  fun _ h => (by subst h; cases this)⟩
            · have hdev : st.st_dev = base_dev := by
                rcases h3 with h3 | h3
                · simp [hs] at h3
                · exact h3
              exact ih _ _ (Reach.step path depth names name st hp hrd hname hl h2.1 hdev) e he
            · simp at he
            · simp at he

theorem Reach_dev (env : Env) (base_dev : Nat) (root p : List Char) (d : Nat)
    (h : Reach env base_dev root p d) :
    (d = 0 ∧ p = root) ∨
    (0 < d ∧ ∃ st, env.lstat p = some st ∧ st.st_mode = FileKind.dir ∧
      st.st_dev = base_dev) := by
  cases h with
  | start => exact Or.inl ⟨rfl, rfl⟩
  | step dir depth names name st _ _ _ hl hm hd =>
    exact Or.inr ⟨Nat.succ_pos _, st, hl, hm, hd⟩

/-- The strings the walk works on: with single_filesystem set, every path
scan_directory is called on below the start was seen by lstat as a directory
on base_dev, and every path handed to fix_symlink is `entry_path dir name`
for such a path `dir` (or the start) and one of its entries.  Where that
string lies in the tree is the subject of scan_directory_contained. -/
theorem scan_directory_single_fs (env : Env) (cfg : Config) (root : List Char)
    (base_dev : Nat) (hs : cfg.g_single_fs = true) :
    (∀ p d, Event.call_scan p d ∈ scan_directory env cfg root base_dev 0 →
      Reach env base_dev root p d) ∧
    (∀ q, Event.call_fix q ∈ scan_directory env cfg root base_dev 0 →
      ∃ dir depth names name, Reach env base_dev root dir depth ∧
        env.readdir dir = some names ∧ name ∈ real_entries names ∧
        q = entry_path dir name) ∧
    (∀ p d, Reach env base_dev root p d →
      (d = 0 ∧ p = root) ∨
      (0 < d ∧ ∃ st, env.lstat p = some st ∧ st.st_mode = FileKind.dir ∧
        st.st_dev = base_dev)) := by
  refine ⟨fun p d h => ?_, fun q h => ?_, fun p d h => Reach_dev env base_dev root p d h⟩
  · exact (scan_fuel_reach env cfg base_dev root hs _ root 0 Reach.start _ h).1 p d rfl
  · exact (scan_fuel_reach env cfg base_dev root hs _ root 0 Reach.start _ h).2 q rfl

/-- An instance of scan_directory_single_fs: the walk of /r on device 0, with
/r/m on device 1. -/
theorem scan_directory_single_fs_witness :
    (∀ p d, Event.call_scan p d ∈
        scan_directory mount_env { default_config with g_recurse := true } "/r".toList 0 0 →
      Reach mount_env 0 "/r".toList p d) ∧
    (∀ q, Event.call_fix q ∈
        scan_directory mount_env { default_config with g_recurse := true } "/r".toList 0 0 →
      ∃ dir depth names name, Reach mount_env 0 "/r".toList dir depth ∧
        mount_env.readdir dir = some names ∧ name ∈ real_entries names ∧
        q = entry_path dir name) ∧
    (∀ p d, Reach mount_env 0 "/r".toList p d →
      (d = 0 ∧ p = "/r".toList) ∨
      (0 < d ∧ ∃ st, mount_env.lstat p = some st ∧ st.st_mode = FileKind.dir ∧
        st.st_dev = 0)) :=
  scan_directory_single_fs mount_env { default_config with g_recurse := true }
    "/r".toList 0 rfl

/-! ### scan_directory: where the visited links lie -/

theorem entry_path_length (path name : List Char) :
    (entry_path path name).length ≤ PATH_MAX - 1 := by
  unfold entry_path
  simp only [List.length_take]
  omega

theorem take_ne_nil (name : List Char) (k : Nat) (hk : 0 < k) (hn : name ≠ []) :
    name.take k ≠ [] := by
  cases name with
  | nil => exact absurd rfl hn
  | cons c t =>
    cases k with
    | zero => omega
    | succ k => simp

theorem entry_path_short (path name : List Char) (hp : path.length + 2 < PATH_MAX)
    (hn : name ≠ []) (hs : '/' ∉ name) : entry_of path (entry_path path name) := by
  unfold entry_path with_slash
  simp only [PATH_MAX] at hp ⊢
  by_cases hl : path.getLast? = some '/'
  · rw [if_neg (fun h => h.2 hl)]
    rw [List.take_append_eq_append_take, List.take_of_length_le (by omega), List.take_take]
    exact ⟨name.take (min (4096 - 1 - path.length) (4096 - path.length)),
      take_ne_nil _ _ (by omega) hn, fun h => hs (List.mem_of_mem_take h), Or.inr ⟨hl, rfl⟩⟩
  · rw [if_pos ⟨hp, hl⟩]
    have hlen : (path ++ sSlash).length = path.length + 1 := by
      rw [List.length_append]
      rfl
    rw [List.take_append_eq_append_take, List.take_of_length_le (by omega), List.take_take]
    refine ⟨name.take (min (4096 - 1 - (path ++ sSlash).length)
        (4096 - (path ++ sSlash).length)),
      take_ne_nil _ _ (by omega) hn, fun h => hs (List.mem_of_mem_take h), Or.inl ?_⟩
    simp [sSlash]

theorem entry_path_long (d path name : List Char) (hp : ¬ path.length + 2 < PATH_MAX)
    (hlen : path.length ≤ PATH_MAX - 1) (hd : entry_of d path) (hs : '/' ∉ name) :
    entry_of d (entry_path path name) := by
  unfold entry_path with_slash
  simp only [PATH_MAX] at hp hlen ⊢
  rw [if_neg (fun h => hp h.1)]
  rw [List.take_append_eq_append_take, List.take_of_length_le (by omega), List.take_take]
  obtain ⟨n, hn, hsn, h⟩ := hd
  refine ⟨n ++ name.take (min (4096 - 1 - path.length) (4096 - path.length)),
    by simp [hn], ?_, ?_⟩
  · intro h
    rcases List.mem_append.mp h with h | h
    · exact hsn h
    · exact hs (List.mem_of_mem_take h)
  · rcases h with h | ⟨h1, h⟩
    · left; rw [h]; simp
    · right; exact ⟨h1, by rw [h]; simp⟩

theorem scan_fuel_inside (env : Env) (cfg : Config) (base_dev : Nat) (root : List Char)
    (hs : cfg.g_single_fs = true)
    (hnames : ∀ dir names, env.readdir dir = some names →
      ∀ name ∈ names, name ≠ [] ∧ '/' ∉ name)
    (fuel : Nat) (path : List Char) (depth : Nat)
    (hp : Inside env base_dev root path) (hlen : path.length ≤ PATH_MAX - 1)
    (hpar : path.length + 2 < PATH_MAX ∨ ∃ d, Inside env base_dev root d ∧ entry_of d path) :
    ∀ e ∈ scan_fuel env cfg base_dev fuel path depth,
      (∀ p d, e = Event.call_scan p d → Inside env base_dev root p) ∧
      (∀ q, e = Event.call_fix q → ∃ dir, Inside env base_dev root dir ∧ entry_of dir q) := by
  induction fuel generalizing path depth with
  | zero =>
    intro e he
    simp [scan_fuel] at he
    subst he
    exact ⟨fun _ _ h => (by cases h), fun _ h => (by cases h)⟩
  | succ fuel ih =>
    intro e he
    rw [scan_fuel] at he
    split_ifs at he with hd
    · simp at he
      subst he
      exact ⟨fun _ _ h => (by cases h), fun _ h => (by cases h)⟩
    · cases hrd : env.readdir path with
      | none =>
        simp only [hrd] at he
        simp at he
        rcases he with he | he <;> subst he
        · exact ⟨fun _ _ h => (by cases h; exact hp), fun _ h => (by cases h)⟩
        · exact ⟨fun _ _ h => (by cases h), fun _ h => (by cases h)⟩
      | some names =>
        simp only [hrd] at he
        rcases List.mem_cons.mp he with he | he
        · subst he
          exact ⟨fun _ _ h => (by cases h; exact hp), fun _ h => (by cases h)⟩
        · obtain ⟨name, hname, he⟩ := List.mem_flatMap.mp he
          have hn := hnames path names hrd name (List.mem_of_mem_filter hname)
          have hloc : ∃ d, Inside env base_dev root d ∧ entry_of d (entry_path path name) := by
            by_cases hshort : path.length + 2 < PATH_MAX
            · exact ⟨path, hp, entry_path_short path name hshort hn.1 hn.2⟩
            · rcases hpar with h | ⟨d, hd1, hd2⟩
              · exact absurd h hshort
              · exact ⟨d, hd1, entry_path_long d path name hshort hlen hd2 hn.2⟩
          cases hl : env.lstat (entry_path path name) with
          | none =>
            simp only [hl] at he
            simp at he
            subst he
            exact ⟨fun _ _ h => (by cases h), fun _ h => (by cases h)⟩
          | some st =>
            simp only [hl] at he
            split_ifs at he with h1 h2 h3
            · rcases List.mem_cons.mp he with he | he
              · subst he
                refine ⟨fun _ _ h => (by cases h), fun q h => ?_⟩
                cases h
                exact hloc
              · have := fix_symlink_no_call _ _ _ _ e he
                exact ⟨fun _ _ h => (by subst h; cases this),
                  fun _ h => (by subst h; cases this)⟩
            · have hdev : st.st_dev = base_dev := by
                rcases h3 with h3 | h3
                · simp [hs] at h3
                · exact h3
              obtain ⟨d, hd1, hd2⟩ := hloc
              exact ih _ _ (Inside.step d _ st hd1 hd2 hl h2.1 hdev)
                (entry_path_length path name) (Or.inr ⟨d, hd1, hd2⟩) e he
            · simp at he
            · simp at he

theorem Inside_dev (env : Env) (base_dev : Nat) (root p : List Char)
    (h : Inside env base_dev root p) :
    p = root ∨
    ∃ dir st, Inside env base_dev root dir ∧ entry_of dir p ∧ env.lstat p = some st ∧
      st.st_mode = FileKind.dir ∧ st.st_dev = base_dev := by
  cases h with
  | start => exact Or.inl rfl
  | step dir _ st h1 h2 hl hm hd => exact Or.inr ⟨dir, st, h1, h2, hl, hm, hd⟩

/-- Where the walk stays inside the start directory: when the start path
leaves room for the '/' of lines 519-522 (fewer than PATH_MAX - 2
characters) and readdir yields non-empty names without '/', then with
single_filesystem set every directory the walk opens is the start or an
entry of a directory opened before it that lstat shows as a directory on
base_dev, and every link handed to fix_symlink is an entry of such a
directory. -/
theorem scan_directory_contained (env : Env) (cfg : Config) (root : List Char)
    (base_dev : Nat) (hs : cfg.g_single_fs = true)
    (hroot : root.length + 2 < PATH_MAX)
    (hnames : ∀ dir names, env.readdir dir = some names →
      ∀ name ∈ names, name ≠ [] ∧ '/' ∉ name) :
    (∀ p d, Event.call_scan p d ∈ scan_directory env cfg root base_dev 0 →
      Inside env base_dev root p) ∧
    (∀ q, Event.call_fix q ∈ scan_directory env cfg root base_dev 0 →
      ∃ dir, Inside env base_dev root dir ∧ entry_of dir q) ∧
    (∀ p, Inside env base_dev root p →
      p = root ∨
      ∃ dir st, Inside env base_dev root dir ∧ entry_of dir p ∧ env.lstat p = some st ∧
        st.st_mode = FileKind.dir ∧ st.st_dev = base_dev) := by
  have hlen : root.length ≤ PATH_MAX - 1 := by simp only [PATH_MAX] at hroot ⊢; omega
  refine ⟨fun p d h => ?_, fun q h => ?_, fun p h => Inside_dev env base_dev root p h⟩
  · exact (scan_fuel_inside env cfg base_dev root hs hnames _ root 0 Inside.start hlen
      (Or.inl hroot) _ h).1 p d rfl
  · exact (scan_fuel_inside env cfg base_dev root hs hnames _ root 0 Inside.start hlen
      (Or.inl hroot) _ h).2 q rfl

/-- An instance of scan_directory_contained: the walk of /r on device 0, with
/r/m on device 1. -/
theorem scan_directory_contained_witness :
    (∀ p d, Event.call_scan p d ∈
        scan_directory mount_env { default_config with g_recurse := true } "/r".toList 0 0 →
      Inside mount_env 0 "/r".toList p) ∧
    (∀ q, Event.call_fix q ∈
        scan_directory mount_env { default_config with g_recurse := true } "/r".toList 0 0 →
      ∃ dir, Inside mount_env 0 "/r".toList dir ∧ entry_of dir q) ∧
    (∀ p, Inside mount_env 0 "/r".toList p →
      p = "/r".toList ∨
      ∃ dir st, Inside mount_env 0 "/r".toList dir ∧ entry_of dir p ∧
        mount_env.lstat p = some st ∧ st.st_mode = FileKind.dir ∧ st.st_dev = 0) :=
  scan_directory_contained mount_env { default_config with g_recurse := true }
    "/r".toList 0 rfl (by decide) (by
      intro dir names h
      simp only [mount_env] at h
      split_ifs at h <;> cases h <;> decide)

/-! ### scan_directory on a start path that fills the buffer -/

theorem long_dir_length : long_dir.length = 4094 := by
  simp only [long_dir, long_parent, List.length_append, List.length_cons,
    List.length_replicate, List.length_flatten, List.map_replicate, List.sum_replicate,
    smul_eq_mul]

theorem long_sibling_eq : long_sibling = long_dir ++ ['x'] := by
  simp only [long_sibling, long_dir, List.append_assoc, List.cons_append]

theorem entry_path_long_dir : entry_path long_dir ['x'] = long_sibling := by
  rw [long_sibling_eq]
  unfold entry_path with_slash
  have h := long_dir_length
  rw [if_neg (by rw [h]; decide)]
  simp only [h]
  rw [List.take_of_length_le (by simp only [List.length_append, h, List.length_take, List.length_cons, List.length_nil, PATH_MAX]; omega)]
  rfl

theorem long_parent_length : long_parent.length = 3840 := by
  simp only [long_parent, List.length_cons,
    List.length_replicate, List.length_flatten, List.map_replicate, List.sum_replicate,
    smul_eq_mul]

theorem long_sibling_length : long_sibling.length = 4095 := by
  rw [long_sibling_eq, List.length_append, long_dir_length]
  rfl

theorem readdir_long_dir :
    overflow_env.readdir long_dir = some [['.'], ['.', '.'], ['x']] :=
  if_pos rfl

theorem lstat_long_sibling :
    overflow_env.lstat long_sibling = some ⟨FileKind.lnk, 1⟩ := by
  have h1 : long_sibling ≠ long_dir := by
    intro h
    have := congrArg List.length h
    rw [long_sibling_length, long_dir_length] at this
    omega
  have h2 : long_sibling ≠ long_parent := by
    intro h
    have := congrArg List.length h
    rw [long_sibling_length, long_parent_length] at this
    omega
  show (if long_sibling = long_dir then _ else _) = _
  rw [if_neg h1, if_neg h2, if_pos rfl]

theorem lstat_long_parent :
    overflow_env.lstat long_parent = some ⟨FileKind.dir, 1⟩ := by
  have h1 : long_parent ≠ long_dir := by
    intro h
    have := congrArg List.length h
    rw [long_parent_length, long_dir_length] at this
    omega
  show (if long_parent = long_dir then _ else _) = _
  rw [if_neg h1, if_pos rfl]

theorem entry_of_long_dir : entry_of long_parent long_dir := by
  refine ⟨List.replicate 253 'b', ?_, ?_, Or.inl ?_⟩
  · intro h
    have := congrArg List.length h
    rw [List.length_replicate] at this
    cases this
  · intro h
    exact absurd (List.eq_of_mem_replicate h) (by decide)
  · simp only [long_dir]

theorem not_entry_of_long_dir : ¬ entry_of long_dir long_sibling := by
  rintro ⟨name, hn, -, h | ⟨h, -⟩⟩
  · have := congrArg List.length h
    rw [long_sibling_length, List.length_append, long_dir_length, List.length_cons] at this
    exact hn (List.length_eq_zero.mp (by omega))
  · have e : long_dir = (long_parent ++ '/' :: List.replicate 252 'b') ++ ['b'] := by
      simp only [long_dir]
      rw [show 253 = 252 + 1 from rfl, List.replicate_succ', List.append_assoc,
        List.cons_append]
    rw [e, List.getLast?_append] at h
    cases h

theorem entry_of_long_sibling : entry_of long_parent long_sibling := by
  refine ⟨List.replicate 253 'b' ++ ['x'], ?_, ?_, Or.inl ?_⟩
  · intro h
    have := congrArg List.length h
    rw [List.length_append, List.length_replicate] at this
    cases this
  · intro h
    rcases List.mem_append.mp h with h | h
    · exact absurd (List.eq_of_mem_replicate h) (by decide)
    · exact absurd (List.mem_singleton.mp h) (by decide)
  · simp only [long_sibling]

/-- C8: the start directory `long_dir`, a path of PATH_MAX - 2 characters,
is on device 0, which is the base device, and its parent `long_parent` is on
device 1.  Lines 519-522 find no room for the '/', line 531 copies the name
"x" of the one entry right behind the path, and with single_filesystem and
recurse set fix_symlink is called on `long_sibling`: a symbolic link that is
an entry of the parent, a directory on another device than base_dev, and not
of the directory walked. -/
theorem scan_directory_leaves_start :
    long_dir.length = PATH_MAX - 2 ∧
    overflow_env.lstat long_dir = some ⟨FileKind.dir, 0⟩ ∧
    overflow_env.lstat long_parent = some ⟨FileKind.dir, 1⟩ ∧
    entry_of long_parent long_dir ∧
    entry_of long_parent long_sibling ∧
    ¬ entry_of long_dir long_sibling ∧
    scan_directory overflow_env { default_config with g_recurse := true } long_dir 0 0 =
      [Event.call_scan long_dir 0, Event.call_fix long_sibling] := by
  refine ⟨long_dir_length, if_pos rfl, lstat_long_parent, entry_of_long_dir,
    entry_of_long_sibling, not_entry_of_long_dir, ?_⟩
  unfold scan_directory
  rw [show 130 - 0 = 129 + 1 from rfl, scan_fuel, if_neg (by decide)]
  simp only [readdir_long_dir]
  have hr : real_entries [['.'], ['.', '.'], ['x']] = [['x']] := by decide
  rw [hr]
  simp only [List.flatMap_cons, List.flatMap_nil, entry_path_long_dir, lstat_long_sibling,
    if_true, List.append_nil]
  have hf : fix_symlink overflow_env { default_config with g_recurse := true }
      long_sibling 0 = [] := by
    unfold fix_symlink
    have hrl : overflow_env.readlink long_sibling = some ['t'] := if_pos rfl
    have hst : ∀ p, overflow_env.stat p = none := fun _ => rfl
    simp only [hrl, hst]
    rfl
  rw [hf]

/-! ### tidy_path is idempotent: strstr -/

theorem strstr_eq_none_iff (s pat : List Char) :
    strstr s pat = none ↔ ¬ pat <:+: s := by
  induction s with
  | nil =>
    cases pat with
    | nil => simp [strstr]
    | cons a pat => simp [strstr]
  | cons c s ih =>
    rw [strstr, List.infix_cons_iff]
    by_cases h : pat.isPrefixOf (c :: s) = true
    · rw [if_pos h]
      have := List.isPrefixOf_iff_prefix.mp h
      simp [this]
    · rw [if_neg h]
      have hp : ¬ pat <+: c :: s := fun hp => h (List.isPrefixOf_iff_prefix.mpr hp)
      simp [hp, ih]

theorem strstr_some (s pat : List Char) (i : Nat) (h : strstr s pat = some i) :
    ∃ A B, s = A ++ pat ++ B ∧ A.length = i := by
  induction s generalizing i with
  | nil =>
    cases pat with
    | nil => simp [strstr] at h; subst h; exact ⟨[], [], rfl, rfl⟩
    | cons a pat => simp [strstr] at h
  | cons c s ih =>
    rw [strstr] at h
    by_cases hp : pat.isPrefixOf (c :: s) = true
    · rw [if_pos hp] at h
      cases h
      obtain ⟨B, hB⟩ := List.isPrefixOf_iff_prefix.mp hp
      exact ⟨[], B, by simp [hB], rfl⟩
    · rw [if_neg hp] at h
      cases hs : strstr s pat with
      | none => simp [hs] at h
      | some j =>
        simp [hs] at h
        obtain ⟨A, B, e, hl⟩ := ih j hs
        refine ⟨c :: A, B, by simp [e], by simp [hl, h]⟩

/-! ### Cutting a piece out of a string -/

theorem infix2_of_splice (x y c : Char) (A B : List Char)
    (h : [x, y] <:+: A ++ c :: B) : [x, y] <:+: A ++ [c] ∨ [x, y] <:+: c :: B := by
  induction A with
  | nil => exact Or.inr h
  | cons a A ih =>
    rw [List.cons_append, List.infix_cons_iff] at h
    rcases h with h | h
    · left
      cases A with
      | nil =>
        simp only [List.nil_append, List.cons_prefix_cons] at h
        obtain ⟨rfl, rfl, -⟩ := h
        exact List.infix_refl _
      | cons a2 A =>
        simp only [List.cons_append, List.cons_prefix_cons] at h
        obtain ⟨rfl, rfl, -⟩ := h
        exact ⟨[], A ++ [c], by simp⟩
    · rcases ih h with h | h
      · left
        rw [List.cons_append, List.infix_cons_iff]
        exact Or.inr h
      · exact Or.inr h

theorem infix3_of_splice (x y z c : Char) (hy : y ≠ c) (A B : List Char)
    (h : [x, y, z] <:+: A ++ c :: B) :
    [x, y, z] <:+: A ++ [c] ∨ [x, y, z] <:+: c :: B := by
  induction A with
  | nil => exact Or.inr h
  | cons a A ih =>
    rw [List.cons_append, List.infix_cons_iff] at h
    rcases h with h | h
    · left
      cases A with
      | nil =>
        simp only [List.nil_append, List.cons_prefix_cons] at h
        exact absurd h.2.1 hy
      | cons a2 A =>
        cases A with
        | nil =>
          simp only [List.cons_append, List.nil_append, List.cons_prefix_cons] at h
          obtain ⟨rfl, rfl, rfl, -⟩ := h
          exact List.infix_refl _
        | cons a3 A =>
          simp only [List.cons_append, List.cons_prefix_cons] at h
          obtain ⟨rfl, rfl, rfl, -⟩ := h
          exact ⟨[], A ++ [c], by simp⟩
    · rcases ih h with h | h
      · left
        rw [List.cons_append, List.infix_cons_iff]
        exact Or.inr h
      · exact Or.inr h

theorem Cut.ends (s R : List Char) (h : Cut s R) (hs : s.getLast? = some '/') :
    R.getLast? = some '/' := by
  obtain ⟨-, A, B, rfl, ⟨C, hC⟩, -⟩ := h
  rw [← hC, List.getLast?_append_of_ne_nil _ (by simp)] at hs
  rw [List.getLast?_append_of_ne_nil _ (by simp)]
  exact hs

theorem Cut.no2 (x y : Char) (s R : List Char) (h : Cut s R) (hs : ¬ [x, y] <:+: s) :
    ¬ [x, y] <:+: R := by
  obtain ⟨-, A, B, rfl, hB, hA⟩ := h
  intro hR
  rcases hA with rfl | hA
  · exact hs (hR.trans hB.isInfix)
  · rcases infix2_of_splice x y '/' A B hR with h | h
    · exact hs (h.trans hA.isInfix)
    · exact hs (h.trans hB.isInfix)

theorem Cut.no3 (x y z : Char) (hy : y ≠ '/') (s R : List Char) (h : Cut s R)
    (hs : ¬ [x, y, z] <:+: s) : ¬ [x, y, z] <:+: R := by
  obtain ⟨-, A, B, rfl, hB, hA⟩ := h
  intro hR
  rcases hA with rfl | hA
  · exact hs (hR.trans hB.isInfix)
  · rcases infix3_of_splice x y z '/' hy A B hR with h | h
    · exact hs (h.trans hA.isInfix)
    · exact hs (h.trans hB.isInfix)

/-! ### replace_substring with a pattern "/.../" replaced by "/" -/

theorem replace_step_eq (A B mid : List Char) (s : List Char) (i : Nat)
    (hs : s = A ++ ('/' :: mid ++ ['/']) ++ B) (hi : A.length = i)
    (hlen : s.length ≤ PATH_MAX * 2) :
    replace_step (PATH_MAX * 2) s ('/' :: mid ++ ['/']) sSlash i = A ++ '/' :: B := by
  subst hs hi
  unfold replace_step
  generalize PATH_MAX * 2 = cap at *
  simp only [List.length_append, List.length_cons, List.length_nil] at hlen
  have e1 : List.take A.length (A ++ ('/' :: mid ++ ['/']) ++ B) = A := by
    rw [List.append_assoc, List.take_left']
    rfl
  have e2 : List.drop (A.length + ('/' :: mid ++ ['/']).length)
      (A ++ ('/' :: mid ++ ['/']) ++ B) = B := by
    rw [← List.length_append, List.drop_left']
    rfl
  simp only [e1, e2]
  have e3 : List.take (cap - A.length - 1) sSlash = sSlash :=
    List.take_of_length_le (by simp [sSlash]; omega)
  rw [e3]
  have e4 : List.take (cap - (A ++ sSlash).length - 1) B = B :=
    List.take_of_length_le (by simp [sSlash]; omega)
  rw [e4]
  rw [List.take_of_length_le (by simp [sSlash]; omega)]
  simp [sSlash]

theorem replace_step_cut (A B mid : List Char) (s : List Char)
    (hs : s = A ++ ('/' :: mid ++ ['/']) ++ B) : Cut s (A ++ '/' :: B) := by
  subst hs
  refine ⟨by simp; omega, A, B, rfl, ⟨A ++ '/' :: mid, by simp⟩, Or.inr ⟨mid ++ ['/'] ++ B, by simp⟩⟩

theorem cuts_length (s R : List Char) (h : Relation.ReflTransGen Cut s R) :
    R.length ≤ s.length := by
  induction h with
  | refl => exact le_refl _
  | tail _ h2 ih => exact le_trans (le_of_lt h2.1) ih

theorem replace_loop_spec (mid : List Char) (fuel : Nat) (s : List Char) (total : Int)
    (hlen : s.length ≤ PATH_MAX * 2) (hf : s.length < fuel) :
    Relation.ReflTransGen Cut s
      (replace_loop (PATH_MAX * 2) ('/' :: mid ++ ['/']) sSlash fuel s total).2 ∧
    ¬ ('/' :: mid ++ ['/']) <:+:
      (replace_loop (PATH_MAX * 2) ('/' :: mid ++ ['/']) sSlash fuel s total).2 ∧
    (('/' :: mid ++ ['/']) <:+: s →
      (replace_loop (PATH_MAX * 2) ('/' :: mid ++ ['/']) sSlash fuel s total).2.length
        < s.length) := by
  induction fuel generalizing s total with
  | zero => omega
  | succ fuel ih =>
    rw [replace_loop]
    cases hst : strstr s ('/' :: mid ++ ['/']) with
    | none =>
      have := (strstr_eq_none_iff _ _).mp hst
      exact ⟨Relation.ReflTransGen.refl, this, fun h => absurd h this⟩
    | some i =>
      obtain ⟨A, B, hs, hi⟩ := strstr_some _ _ _ hst
      have hnew : ¬ (sSlash.length > ('/' :: mid ++ ['/']).length ∧
          s.length + (sSlash.length - ('/' :: mid ++ ['/']).length) + 1 > PATH_MAX * 2) := by
        simp [sSlash]
      simp only [hnew, if_false]
      rw [replace_step_eq A B mid s i hs hi hlen]
      have hc := replace_step_cut A B mid s hs
      have hl := hc.1
      obtain ⟨h1, h2, -⟩ := ih (A ++ '/' :: B) (total + 1) (by omega) (by omega)
      refine ⟨Relation.ReflTransGen.head hc h1, h2, fun _ => ?_⟩
      exact lt_of_le_of_lt (cuts_length _ _ h1) hl

theorem replace_substring_spec (mid : List Char) (s : List Char)
    (hlen : s.length ≤ PATH_MAX * 2) :
    Relation.ReflTransGen Cut s
      (replace_substring s (PATH_MAX * 2) ('/' :: mid ++ ['/']) sSlash).2 ∧
    ¬ ('/' :: mid ++ ['/']) <:+:
      (replace_substring s (PATH_MAX * 2) ('/' :: mid ++ ['/']) sSlash).2 ∧
    (('/' :: mid ++ ['/']) <:+: s →
      (replace_substring s (PATH_MAX * 2) ('/' :: mid ++ ['/']) sSlash).2.length
        < s.length) := by
  unfold replace_substring
  rw [if_neg (by simp)]
  exact replace_loop_spec mid _ s 0 hlen (Nat.lt_succ_self _)

theorem replace_substring_none (pat : List Char) (s : List Char) (bufsize : Nat)
    (h : ¬ pat <:+: s) :
    replace_substring s bufsize pat sSlash = (0, s) := by
  unfold replace_substring
  split
  · rfl
  · rw [replace_loop, (strstr_eq_none_iff _ _).mpr h]

/-! ### The loops of tidy_path -/

theorem tidy_replace_while_none (pat : List Char) (fuel : Nat) (w : List Char) (ch : Int)
    (h : ¬ pat <:+: w) :
    tidy_replace_while pat (fuel + 1) w ch = (ch, w) := by
  rw [tidy_replace_while]
  simp [replace_substring_none pat w _ h]

theorem tidy_replace_while_spec (mid : List Char) (fuel : Nat) (w : List Char) (ch : Int)
    (hlen : w.length ≤ PATH_MAX * 2) (hf : 2 ≤ fuel) :
    Relation.ReflTransGen Cut w
      (tidy_replace_while ('/' :: mid ++ ['/']) fuel w ch).2 ∧
    ¬ ('/' :: mid ++ ['/']) <:+: (tidy_replace_while ('/' :: mid ++ ['/']) fuel w ch).2 := by
  obtain ⟨f, rfl⟩ : ∃ f, fuel = f + 2 := ⟨fuel - 2, by omega⟩
  obtain ⟨h1, h2, -⟩ := replace_substring_spec mid w hlen
  rw [tidy_replace_while]
  split
  · rw [tidy_replace_while_none _ f _ _ h2]
    exact ⟨h1, h2⟩
  · exact ⟨h1, h2⟩

theorem find_slash_back_le (w : List Char) (k : Nat) : find_slash_back w k ≤ k := by
  induction k with
  | zero => simp [find_slash_back]
  | succ k ih =>
    rw [find_slash_back]
    split
    · exact le_refl _
    · exact Nat.le_succ_of_le ih

theorem find_slash_back_pos (w : List Char) (k : Nat) (h : 0 < find_slash_back w k) :
    w[find_slash_back w k]? = some '/' := by
  induction k with
  | zero => simp [find_slash_back] at h
  | succ k ih =>
    rw [find_slash_back] at h ⊢
    split
    · rename_i hk; exact hk
    · rename_i hk
      rw [if_neg hk] at h
      exact ih h

theorem collapse_else_cut (A B w : List Char) (p slash : Nat)
    (hw : w = A ++ sDotDotSlash ++ B) (hp : A.length = p) (hsl : slash < p)
    (hs : slash = 0 ∨ w[slash]? = some '/') :
    Cut w (w.take slash ++ w.drop (p + 3)) := by
  have hd : w.drop (p + 3) = '/' :: B := by
    subst hw hp
    have : A ++ sDotDotSlash ++ B = (A ++ ['/', '.', '.']) ++ ('/' :: B) := by
      simp [sDotDotSlash]
    rw [this]
    exact List.drop_left' (by simp)
  have hwl : w.length = p + 4 + B.length := by
    subst hw hp; simp [sDotDotSlash]; omega
  rw [hd]
  refine ⟨?_, w.take slash, B, rfl, ?_, ?_⟩
  · simp [List.length_take]; omega
  · rw [← hd]; exact List.drop_suffix _ _
  · rcases Nat.eq_zero_or_pos slash with h0 | hpos
    · left; simp [h0]
    · right
      have h := hs.resolve_left (by omega)
      have : w.take (slash + 1) = w.take slash ++ ['/'] := by
        rw [List.take_succ, h]; rfl
      rw [← this]
      exact List.take_prefix _ _

theorem collapse_loop_spec (fuel : Nat) (w : List Char) (ch : Int)
    (hlen : w.length ≤ PATH_MAX * 2) (hf : w.length < fuel) :
    Relation.ReflTransGen Cut w (collapse_loop fuel w ch).2 ∧
    ¬ sDotDotSlash <:+: (collapse_loop fuel w ch).2 := by
  induction fuel generalizing w ch with
  | zero => omega
  | succ fuel ih =>
    rw [collapse_loop]
    cases hst : strstr w sDotDotSlash with
    | none =>
      exact ⟨Relation.ReflTransGen.refl, (strstr_eq_none_iff _ _).mp hst⟩
    | some p =>
      obtain ⟨A, B, hw, hp⟩ := strstr_some _ _ _ hst
      have hin : sDotDotSlash <:+: w := by
        by_contra hn
        rw [(strstr_eq_none_iff _ _).mpr hn] at hst
        cases hst
      obtain ⟨r1, -, r3⟩ := replace_substring_spec ['.', '.'] w hlen
      have r3' := r3 hin
      have hrl := cuts_length _ _ r1
      have root : Relation.ReflTransGen Cut w
          (collapse_loop fuel
            (replace_substring w (PATH_MAX * 2) sDotDotSlash sSlash).2 1).2 ∧
          ¬ sDotDotSlash <:+: (collapse_loop fuel
            (replace_substring w (PATH_MAX * 2) sDotDotSlash sSlash).2 1).2 := by
        obtain ⟨i1, i2⟩ := ih (replace_substring w (PATH_MAX * 2) sDotDotSlash sSlash).2 1
          (le_trans hrl hlen) (by
            have : (replace_substring w (PATH_MAX * 2) sDotDotSlash sSlash).2.length
                < w.length := r3'
            omega)
        exact ⟨r1.trans i1, i2⟩
      dsimp only
      split
      · exact root
      · rename_i hp0
        split
        · exact root
        · rename_i hbr
          have hle := find_slash_back_le w (p - 1)
          have hc : Cut w (w.take (find_slash_back w (p - 1)) ++ w.drop (p + 3)) := by
            apply collapse_else_cut A B w p _ hw hp (by omega)
            rcases Nat.eq_zero_or_pos (find_slash_back w (p - 1)) with h0 | hpos
            · exact Or.inl h0
            · exact Or.inr (find_slash_back_pos w _ hpos)
          obtain ⟨i1, i2⟩ := ih _ 1 (le_trans (le_of_lt hc.1) hlen)
            (by have := hc.1; omega)
          exact ⟨Relation.ReflTransGen.head hc i1, i2⟩

theorem collapse_loop_none (fuel : Nat) (w : List Char) (ch : Int)
    (h : ¬ sDotDotSlash <:+: w) : collapse_loop (fuel + 1) w ch = (ch, w) := by
  rw [collapse_loop, (strstr_eq_none_iff _ _).mpr h]

theorem cuts_ends (s R : List Char) (h : Relation.ReflTransGen Cut s R)
    (hs : s.getLast? = some '/') : R.getLast? = some '/' := by
  induction h with
  | refl => exact hs
  | tail _ h2 ih => exact Cut.ends _ _ h2 ih

theorem cuts_no2 (x y : Char) (s R : List Char) (h : Relation.ReflTransGen Cut s R)
    (hs : ¬ [x, y] <:+: s) : ¬ [x, y] <:+: R := by
  induction h with
  | refl => exact hs
  | tail _ h2 ih => exact Cut.no2 x y _ _ h2 ih

theorem cuts_no3 (x y z : Char) (hy : y ≠ '/') (s R : List Char)
    (h : Relation.ReflTransGen Cut s R) (hs : ¬ [x, y, z] <:+: s) :
    ¬ [x, y, z] <:+: R := by
  induction h with
  | refl => exact hs
  | tail _ h2 ih => exact Cut.no3 x y z hy _ _ h2 ih

theorem Clean.suffix (w v : List Char) (h : Clean w) (hv : v <:+ w) (hne : v ≠ []) :
    Clean v := by
  obtain ⟨h1, h2, h3, h4⟩ := h
  refine ⟨?_, fun h => h2 (h.trans hv.isInfix), fun h => h3 (h.trans hv.isInfix),
    fun h => h4 (h.trans hv.isInfix)⟩
  obtain ⟨C, rfl⟩ := hv
  rwa [List.getLast?_append_of_ne_nil _ hne] at h1

theorem phase_replace (pat mid : List Char) (hpat : pat = '/' :: mid ++ ['/'])
    (w : List Char) (ch : Int) (hlen : w.length ≤ PATH_MAX * 2) (hne : w ≠ []) :
    ∃ c R, tidy_replace_while pat (w.length + 1) w ch = (c, R) ∧
      Relation.ReflTransGen Cut w R ∧ ¬ pat <:+: R := by
  subst hpat
  have hlen0 : 0 < w.length := List.length_pos.mpr hne
  exact ⟨_, _, rfl, tidy_replace_while_spec mid (w.length + 1) w ch hlen (by omega)⟩

theorem phase_collapse (w : List Char) (ch : Int) (hlen : w.length ≤ PATH_MAX * 2) :
    ∃ c R, collapse_loop (w.length + 1) w ch = (c, R) ∧
      Relation.ReflTransGen Cut w R ∧ ¬ sDotDotSlash <:+: R :=
  ⟨_, _, rfl, collapse_loop_spec (w.length + 1) w ch hlen (Nat.lt_succ_self _)⟩

theorem ne_nil_of_ends (w : List Char) (h : w.getLast? = some '/') : w ≠ [] := by
  intro h0; simp [h0] at h

theorem tidy_path_eq (p : List Char) (hp : p ≠ []) (hl : p.length < PATH_MAX) :
    ∃ w3 ch3, Clean w3 ∧ w3.length ≤ PATH_MAX ∧
      tidy_path p =
        ((strip_leading (strip_trailing w3.length w3 ch3).2
            (strip_trailing w3.length w3 ch3).1).1,
         (strip_leading (strip_trailing w3.length w3 ch3).2
            (strip_trailing w3.length w3 ch3).1).2.take (PATH_MAX - 1)) := by
  have hpm : PATH_MAX = 4096 := rfl
  obtain ⟨w0, hw0, he0, hl0⟩ : ∃ w0 : List Char,
      (if p.length + 2 < PATH_MAX * 2 ∧ p.getLast? ≠ some '/' then
        (p ++ sSlash).take (PATH_MAX * 2 - 1) else p.take (PATH_MAX * 2 - 1)) = w0 ∧
      w0.getLast? = some '/' ∧ w0.length ≤ PATH_MAX := by
    refine ⟨_, rfl, ?_, ?_⟩
    · split
      · rw [List.take_of_length_le (by simp [sSlash]; omega)]
        simp [sSlash]
      · rename_i h
        rw [List.take_of_length_le (by omega)]
        by_contra hc
        exact h ⟨by omega, hc⟩
    · split
      · rw [List.take_of_length_le (by simp [sSlash]; omega)]
        simp [sSlash]; omega
      · rw [List.take_of_length_le (by omega)]; omega
  obtain ⟨ch1, w1, h1, c1, n1⟩ := phase_replace sDotSlash ['.'] rfl w0 0 (by omega)
    (ne_nil_of_ends _ he0)
  have e1 := cuts_ends _ _ c1 he0
  have l1 := cuts_length _ _ c1
  obtain ⟨ch2, w2, h2, c2, n2⟩ := phase_replace sSlashSlash [] rfl w1 ch1 (by omega)
    (ne_nil_of_ends _ e1)
  have e2 := cuts_ends _ _ c2 e1
  have l2 := cuts_length _ _ c2
  have n21 := cuts_no3 '/' '.' '/' (by decide) _ _ c2 n1
  obtain ⟨ch3, w3, h3, c3, n3⟩ := phase_collapse w2 ch2 (by omega)
  have e3 := cuts_ends _ _ c3 e2
  have l3 := cuts_length _ _ c3
  have n31 := cuts_no3 '/' '.' '/' (by decide) _ _ c3 n21
  have n32 := cuts_no2 '/' '/' _ _ c3 n2
  refine ⟨w3, ch3, ⟨e3, n32, n31, n3⟩, by omega, ?_⟩
  unfold tidy_path
  rw [if_neg (by simpa using hp)]
  simp only [hw0, h1, h2, h3]

theorem strip_trailing_stop (fuel : Nat) (x : List Char) (ch : Int)
    (h : x.getLast? ≠ some '/') : strip_trailing fuel x ch = (ch, x) := by
  cases fuel with
  | zero => rfl
  | succ f => rw [strip_trailing, if_neg (fun hc => h hc.2)]

theorem strip_trailing_one (fuel : Nat) (x : List Char) (ch : Int) (hx : x ≠ [])
    (h : x.getLast? ≠ some '/') :
    strip_trailing (fuel + 1) (x ++ ['/']) ch = (1, x) := by
  have hl : 0 < x.length := List.length_pos.mpr hx
  rw [strip_trailing, if_pos ⟨by simp; omega, by simp⟩]
  simp only [List.dropLast_concat]
  exact strip_trailing_stop _ _ _ h

theorem strip_trailing_root (fuel : Nat) (ch : Int) :
    strip_trailing fuel ['/'] ch = (ch, ['/']) := by
  cases fuel with
  | zero => rfl
  | succ f => rw [strip_trailing, if_neg (by simp)]

theorem Clean.shape (w : List Char) (h : Clean w) :
    w = ['/'] ∨ ∃ x, w = x ++ ['/'] ∧ x ≠ [] ∧ x.getLast? ≠ some '/' := by
  obtain ⟨h1, h2, -, -⟩ := h
  obtain ⟨x, rfl⟩ := List.getLast?_eq_some_iff.mp h1
  cases x with
  | nil => exact Or.inl rfl
  | cons a x =>
    right
    refine ⟨a :: x, rfl, by simp, fun hx => ?_⟩
    obtain ⟨y, hy⟩ := List.getLast?_eq_some_iff.mp hx
    apply h2
    rw [hy]
    exact ⟨y, [], by simp [sSlashSlash]⟩

theorem strip_leading_id (r : List Char) (c : Int) (h : ¬ ['.', '/'] <+: r) :
    strip_leading r c = (c, r) := by
  unfold strip_leading
  split
  · rename_i rest
    exact absurd ⟨rest, rfl⟩ h
  · rfl

theorem strip_leading_spec (w : List Char) (c : Int) :
    (strip_leading w c).2 <:+ w ∧ ¬ ['.', '/'] <+: (strip_leading w c).2 ∧
    (w ≠ [] → w.getLast? ≠ some '/' →
      (strip_leading w c).2 ≠ [] ∧ (strip_leading w c).2.getLast? = w.getLast?) := by
  induction w, c using strip_leading.induct with
  | case1 rest c ih =>
    rw [strip_leading]
    obtain ⟨i1, i2, i3⟩ := ih
    refine ⟨i1.trans ⟨['.', '/'], rfl⟩, i2, fun _ hl => ?_⟩
    have hrest : rest ≠ [] := by
      intro h; subst h; simp at hl
    have e : ('.' :: '/' :: rest).getLast? = rest.getLast? := by
      have : '.' :: '/' :: rest = ['.', '/'] ++ rest := rfl
      rw [this, List.getLast?_append_of_ne_nil _ hrest]
    rw [e] at hl ⊢
    exact i3 hrest hl
  | case2 w c hw =>
    have hn : ¬ ['.', '/'] <+: w := by
      rintro ⟨rest, rfl⟩
      exact hw rest rfl
    rw [strip_leading_id w c hn]
    exact ⟨List.suffix_refl _, hn, fun h1 _ => ⟨h1, rfl⟩⟩

theorem tidy_path_clean (r : List Char) (hne : r ≠ []) (hl : r.getLast? ≠ some '/')
    (hlen : r.length < PATH_MAX) (hc : Clean (r ++ ['/'])) (hd : ¬ ['.', '/'] <+: r) :
    tidy_path r = (1, r) := by
  have hpm : PATH_MAX = 4096 := rfl
  obtain ⟨-, c2, c3, c4⟩ := hc
  unfold tidy_path
  rw [if_neg (by simpa using hne)]
  have hw0 : (if r.length + 2 < PATH_MAX * 2 ∧ r.getLast? ≠ some '/' then
        (r ++ sSlash).take (PATH_MAX * 2 - 1) else r.take (PATH_MAX * 2 - 1))
      = r ++ ['/'] := by
    rw [if_pos ⟨by omega, hl⟩, List.take_of_length_le (by simp [sSlash]; omega)]
    rfl
  simp only [hw0]
  rw [tidy_replace_while_none _ _ _ _ c3]
  simp only
  rw [tidy_replace_while_none _ _ _ _ c2]
  simp only
  rw [collapse_loop_none _ _ _ c4]
  simp only
  have : (r ++ ['/']).length = r.length + 1 := by simp
  rw [this, strip_trailing_one _ _ _ hne hl]
  simp only
  rw [strip_leading_id r 1 hd]
  simp only
  rw [List.take_of_length_le (by omega)]

theorem tidy_path_fixed (w3 : List Char) (c c' : Int) (hc : Clean w3)
    (hl : w3.length ≤ PATH_MAX) :
    (tidy_path ((strip_leading (strip_trailing w3.length w3 c).2 c').2.take
      (PATH_MAX - 1))).2 =
    (strip_leading (strip_trailing w3.length w3 c).2 c').2.take (PATH_MAX - 1) := by
  have hpm : PATH_MAX = 4096 := rfl
  rcases hc.shape with rfl | ⟨x, rfl, hx, hxl⟩
  · rw [strip_trailing_root]
    simp only
    rw [strip_leading_id _ _ (by rintro ⟨t, ht⟩; cases ht)]
    show (tidy_path (List.take (PATH_MAX - 1) ['/'])).2 = List.take (PATH_MAX - 1) ['/']
    decide
  · have hlen : (x ++ ['/']).length = x.length + 1 := by simp
    rw [hlen] at hl ⊢
    rw [strip_trailing_one _ _ _ hx hxl]
    simp only
    obtain ⟨s1, s2, s3⟩ := strip_leading_spec x c'
    obtain ⟨s4, s5⟩ := s3 hx hxl
    have hrl : (strip_leading x c').2.length ≤ x.length := s1.length_le
    rw [List.take_of_length_le (by omega)]
    have hsuf : (strip_leading x c').2 ++ ['/'] <:+ x ++ ['/'] := by
      obtain ⟨t, ht⟩ := s1
      exact ⟨t, by rw [← List.append_assoc, ht]⟩
    rw [tidy_path_clean _ s4 (by rw [s5]; exact hxl) (by omega)
      (Clean.suffix _ _ hc hsuf (by simp)) s2]

/-- C6: tidy_path is idempotent: for every path shorter than PATH_MAX,
tidying the tidied path gives the tidied path again. -/
theorem tidy_path_idempotent (p : List Char) (hl : p.length < PATH_MAX) :
    (tidy_path (tidy_path p).2).2 = (tidy_path p).2 := by
  by_cases hp : p = []
  · subst hp; decide
  · obtain ⟨w3, ch3, hc, hw, e⟩ := tidy_path_eq p hp hl
    rw [e]
    exact tidy_path_fixed w3 ch3 _ hc hw

/-- C6 witness: the path /tree/a/../b/file. -/
theorem tidy_path_idempotent_witness :
    (tidy_path (tidy_path "/tree/a/../b/file".toList).2).2 =
      (tidy_path "/tree/a/../b/file".toList).2 :=
  tidy_path_idempotent "/tree/a/../b/file".toList (by decide)

/-! ### fix_symlink: test mode and verbose reports -/

/-- C12: for the clean relative link /tree/a/link1 with value "../b/file"
test mode prints "(test) would change: /tree/a/link1 -> ../b/file", while
the same run without test mode rewrites nothing; the same holds with
fix_links set. -/
theorem test_mode_reports_unchanged_link :
    fix_symlink (tree_env tree_scenario "/tree/a/link1".toList "../b/file".toList)
      { default_config with g_testing := true } "/tree/a/link1".toList 0
      = [Event.print Report.would_change "/tree/a/link1".toList "../b/file".toList] ∧
    fix_symlink (tree_env tree_scenario "/tree/a/link1".toList "../b/file".toList)
      default_config "/tree/a/link1".toList 0 = [] ∧
    fix_symlink (tree_env tree_scenario "/tree/a/link1".toList "../b/file".toList)
      { default_config with g_testing := true, g_fix_links := true }
      "/tree/a/link1".toList 0
      = [Event.print Report.would_change "/tree/a/link1".toList "../b/file".toList] ∧
    fix_symlink (tree_env tree_scenario "/tree/a/link1".toList "../b/file".toList)
      { default_config with g_fix_links := true } "/tree/a/link1".toList 0 = [] := by
  decide

/-- C13: with verbose and fix_links set, the absolute link /tree/a/link1 with
value /tree/b/file yields no line at all when its conversion fails, and only
a diagnostic on stderr when unlink fails. -/
theorem verbose_silent_on_absolute_link :
    fix_symlink scenario_no_realpath
      { default_config with g_verbose := true, g_fix_links := true }
      "/tree/a/link1".toList 0 = [] ∧
    fix_symlink scenario_no_unlink
      { default_config with g_verbose := true, g_fix_links := true }
      "/tree/a/link1".toList 0
      = [Event.sys_unlink "/tree/a/link1".toList, Event.diag "/tree/a/link1".toList] := by
  decide

/-- C11: when the call of build_relative_path made for an absolute link under
fix_links fails, the candidate value is the raw target again, and fix_symlink
calls neither unlink nor symlink. -/
theorem conversion_failure_keeps_target (env : Env) (cfg : Config)
    (symlink_path : List Char) (base_dev : Nat) (value : List Char) (stbuf : Stat)
    (hr : env.readlink symlink_path = some value)
    (habs : (value.take PATH_MAX).head? = some '/')
    (hfix : cfg.g_fix_links = true)
    (hstat : env.stat (abs_resolved symlink_path (value.take PATH_MAX)) = some stbuf)
    (hdev : ¬ (cfg.g_single_fs = true ∧ stbuf.st_dev ≠ base_dev))
    (hfail : (build_relative_path env.realpath (dir_part (symlink_path.take PATH_MAX))
      (abs_resolved symlink_path (value.take PATH_MAX))
      (candidate cfg symlink_path (value.take PATH_MAX)).1 (PATH_MAX + 1)).1 < 0) :
    convert env cfg symlink_path (value.take PATH_MAX)
      (abs_resolved symlink_path (value.take PATH_MAX))
      (candidate cfg symlink_path (value.take PATH_MAX)).1 = value.take PATH_MAX ∧
    (∀ p, Event.sys_unlink p ∉ fix_symlink env cfg symlink_path base_dev) ∧
    (∀ v p, Event.sys_symlink v p ∉ fix_symlink env cfg symlink_path base_dev) := by
  have hconv : convert env cfg symlink_path (value.take PATH_MAX)
      (abs_resolved symlink_path (value.take PATH_MAX))
      (candidate cfg symlink_path (value.take PATH_MAX)).1 = value.take PATH_MAX := by
    unfold convert
    rw [if_pos ⟨hfix, habs⟩]
    simp only [hfail, if_true]
    exact List.take_of_length_le (by simp [List.length_take])
  have key : ∀ e ∈ fix_symlink env cfg symlink_path base_dev,
      ∃ r l w, e = Event.print r l w := by
    intro e he
    unfold fix_symlink at he
    simp only [hr, hstat] at he
    dsimp only [fix_symlink_found] at he
    rw [if_neg hdev, hconv] at he
    have hv := verbose_report_prints cfg symlink_path (value.take PATH_MAX)
      (candidate cfg symlink_path (value.take PATH_MAX)).2
    generalize verbose_report cfg symlink_path (value.take PATH_MAX)
      (candidate cfg symlink_path (value.take PATH_MAX)).2 = report at he hv
    simp only [hfix, if_true] at he
    split_ifs at he
    · simp_all
    · rcases List.mem_append.mp he with h | h
      · exact hv e h
      · simp at h; exact ⟨_, _, _, h⟩
    · exact hv e he
  refine ⟨hconv, fun p hp => ?_, fun v p hp => ?_⟩
  · obtain ⟨r, l, w, h⟩ := key _ hp
    cases h
  · obtain ⟨r, l, w, h⟩ := key _ hp
    cases h

/-- C11 witness: the absolute link /tree/a/link1 with value /tree/b/file,
fix_links set, where realpath fails. -/
theorem conversion_failure_keeps_target_witness :
    convert scenario_no_realpath { default_config with g_fix_links := true }
      "/tree/a/link1".toList ("/tree/b/file".toList.take PATH_MAX)
      (abs_resolved "/tree/a/link1".toList ("/tree/b/file".toList.take PATH_MAX))
      (candidate { default_config with g_fix_links := true } "/tree/a/link1".toList
        ("/tree/b/file".toList.take PATH_MAX)).1 = "/tree/b/file".toList.take PATH_MAX ∧
    (∀ p, Event.sys_unlink p ∉ fix_symlink scenario_no_realpath
      { default_config with g_fix_links := true } "/tree/a/link1".toList 0) ∧
    (∀ v p, Event.sys_symlink v p ∉ fix_symlink scenario_no_realpath
      { default_config with g_fix_links := true } "/tree/a/link1".toList 0) :=
  conversion_failure_keeps_target scenario_no_realpath
    { default_config with g_fix_links := true } "/tree/a/link1".toList 0
    "/tree/b/file".toList ⟨FileKind.other, 0⟩ (by decide) (by decide) rfl (by decide)
    (by decide) (by decide)

/-! ### scan_directory: the depth guard -/

theorem scan_fuel_depth (env : Env) (cfg : Config) (base_dev : Nat) (fuel : Nat)
    (path : List Char) (depth : Nat) :
    ∀ p d, Event.call_scan p d ∈ scan_fuel env cfg base_dev fuel path depth →
      depth ≤ d ∧ d ≤ 128 := by
  induction fuel generalizing path depth with
  | zero => intro p d h; simp [scan_fuel] at h
  | succ fuel ih =>
    intro p d h
    rw [scan_fuel] at h
    split_ifs at h with hd
    · simp at h
    · cases hrd : env.readdir path with
      | none =>
        simp only [hrd] at h
        simp at h
        obtain ⟨-, rfl⟩ := h
        omega
      | some names =>
        simp only [hrd] at h
        rcases List.mem_cons.mp h with h | h
        · cases h; omega
        · obtain ⟨name, -, h⟩ := List.mem_flatMap.mp h
          cases hl : env.lstat (entry_path path name) with
          | none => simp [hl] at h
          | some st =>
            simp only [hl] at h
            split_ifs at h
            · rcases List.mem_cons.mp h with h | h
              · cases h
              · have := fix_symlink_no_call _ _ _ _ _ h
                cases this
            · have := ih _ _ p d h
              omega
            · simp at h
            · simp at h

theorem scan_fuel_succ (env : Env) (cfg : Config) (base_dev : Nat) (fuel : Nat)
    (path : List Char) (depth : Nat) (h : 130 ≤ fuel + depth) :
    scan_fuel env cfg base_dev (fuel + 1) path depth =
      scan_fuel env cfg base_dev fuel path depth := by
  induction fuel generalizing path depth with
  | zero =>
    have hd : depth > 128 := by omega
    simp [scan_fuel, hd]
  | succ fuel ih =>
    conv_lhs => rw [scan_fuel]
    conv_rhs => rw [scan_fuel]
    have e : ∀ child, scan_fuel env cfg base_dev (fuel + 1) child (depth + 1) =
        scan_fuel env cfg base_dev fuel child (depth + 1) :=
      fun child => ih child (depth + 1) (by omega)
    simp only [e]

theorem scan_fuel_stable (env : Env) (cfg : Config) (base_dev : Nat) (fuel : Nat)
    (path : List Char) (h : 130 ≤ fuel) :
    scan_fuel env cfg base_dev fuel path 0 = scan_fuel env cfg base_dev 130 path 0 := by
  induction fuel with
  | zero => omega
  | succ fuel ih =>
    rcases Nat.eq_or_lt_of_le h with h1 | h1
    · rw [← h1]
    · rw [scan_fuel_succ _ _ _ _ _ _ (by omega), ih (by omega)]

/-- C20: in a walk started at depth 0 opendir is never called on a directory
more than 128 levels below the start, and the walk is finite: the recursion
bound of the model is never the reason a call returns, since every larger
bound gives the same trace. -/
theorem scan_directory_depth_bound (env : Env) (cfg : Config) (root : List Char)
    (base_dev : Nat) :
    (∀ p d, Event.call_scan p d ∈ scan_directory env cfg root base_dev 0 → d ≤ 128) ∧
    (∀ fuel, 130 ≤ fuel →
      scan_fuel env cfg base_dev fuel root 0 = scan_directory env cfg root base_dev 0) := by
  refine ⟨fun p d h => (scan_fuel_depth env cfg base_dev _ root 0 p d h).2,
    fun fuel h => scan_fuel_stable env cfg base_dev fuel root h⟩

/-! ### tidy_path: the flag and the phases, for paths of any length -/

theorem replace_loop_count (mid : List Char) (bufsize fuel : Nat) (s : List Char)
    (total : Int) :
    total < (replace_loop bufsize ('/' :: mid ++ ['/']) sSlash fuel s total).1 ∨
    replace_loop bufsize ('/' :: mid ++ ['/']) sSlash fuel s total = (total, s) := by
  induction fuel generalizing s total with
  | zero => exact Or.inr rfl
  | succ fuel ih =>
    rw [replace_loop]
    cases hst : strstr s ('/' :: mid ++ ['/']) with
    | none => exact Or.inr rfl
    | some i =>
      have hnew : ¬ (sSlash.length > ('/' :: mid ++ ['/']).length ∧
          s.length + (sSlash.length - ('/' :: mid ++ ['/']).length) + 1 > bufsize) := by
        simp [sSlash]
      simp only [hnew, if_false]
      left
      rcases ih (replace_step bufsize s ('/' :: mid ++ ['/']) sSlash i) (total + 1) with h | h
      · omega
      · rw [h]; simp

theorem replace_substring_count (mid : List Char) (bufsize : Nat) (s : List Char) :
    0 < (replace_substring s bufsize ('/' :: mid ++ ['/']) sSlash).1 ∨
    replace_substring s bufsize ('/' :: mid ++ ['/']) sSlash = (0, s) := by
  unfold replace_substring
  rw [if_neg (by simp)]
  exact replace_loop_count mid bufsize _ s 0

theorem tidy_replace_while_flag (mid : List Char) (fuel : Nat) (w : List Char) (ch : Int) :
    (tidy_replace_while ('/' :: mid ++ ['/']) fuel w ch).1 = 1 ∨
    tidy_replace_while ('/' :: mid ++ ['/']) fuel w ch = (ch, w) := by
  induction fuel generalizing w ch with
  | zero => exact Or.inr rfl
  | succ fuel ih =>
    rw [tidy_replace_while]
    rcases replace_substring_count mid (PATH_MAX * 2) w with h | h
    · rw [if_pos h]
      rcases ih (replace_substring w (PATH_MAX * 2) ('/' :: mid ++ ['/']) sSlash).2 1
        with h1 | h1
      · exact Or.inl h1
      · rw [h1]; exact Or.inl rfl
    · rw [h]; simp

theorem collapse_loop_flag (fuel : Nat) (w : List Char) (ch : Int) :
    (collapse_loop fuel w ch).1 = 1 ∨ collapse_loop fuel w ch = (ch, w) := by
  have one : ∀ fuel w, (collapse_loop fuel w 1).1 = 1 := by
    intro fuel
    induction fuel with
    | zero => intro w; rfl
    | succ fuel ih =>
      intro w
      rw [collapse_loop]
      split
      · rfl
      · dsimp only
        split_ifs <;> exact ih _
  cases fuel with
  | zero => exact Or.inr rfl
  | succ fuel =>
    rw [collapse_loop]
    split
    · exact Or.inr rfl
    · left
      dsimp only
      split_ifs <;> exact one _ _

theorem strip_trailing_flag (fuel : Nat) (w : List Char) (ch : Int) :
    (strip_trailing fuel w ch).1 = 1 ∨ strip_trailing fuel w ch = (ch, w) := by
  induction fuel generalizing w ch with
  | zero => exact Or.inr rfl
  | succ fuel ih =>
    rw [strip_trailing]
    split_ifs
    · rcases ih w.dropLast 1 with h | h
      · exact Or.inl h
      · rw [h]; exact Or.inl rfl
    · exact Or.inr rfl

theorem strip_leading_flag (w : List Char) (ch : Int) :
    (strip_leading w ch).1 = 1 ∨ strip_leading w ch = (ch, w) := by
  induction w, ch using strip_leading.induct with
  | case1 rest c ih =>
    rw [strip_leading]
    rcases ih with h | h
    · exact Or.inl h
    · rw [h]; exact Or.inl rfl
  | case2 w c hw =>
    right
    unfold strip_leading
    split
    · rename_i rest
      exact absurd rfl (hw rest)
    · rfl

theorem cuts_ne_nil (s R : List Char) (h : Relation.ReflTransGen Cut s R) (hs : s ≠ []) :
    R ≠ [] := by
  induction h with
  | refl => exact hs
  | tail _ h2 _ =>
    obtain ⟨-, A, B, rfl, -⟩ := h2
    simp

/-- Every run of tidy_path on a non-empty path: the working copy `w0`, the
working string `w3` after the three collapsing loops and the flag `ch3` at
that point. -/
theorem tidy_path_run (p : List Char) (hp : p ≠ []) :
    ∃ w0 w3 ch3,
      w0 = (if p.length + 2 < PATH_MAX * 2 ∧ p.getLast? ≠ some '/' then
        (p ++ sSlash).take (PATH_MAX * 2 - 1) else p.take (PATH_MAX * 2 - 1)) ∧
      w0 ≠ [] ∧ w0.length < PATH_MAX * 2 ∧
      Relation.ReflTransGen Cut w0 w3 ∧
      ¬ sSlashSlash <:+: w3 ∧ ¬ sDotSlash <:+: w3 ∧ ¬ sDotDotSlash <:+: w3 ∧
      (ch3 = 1 ∨ (ch3 = 0 ∧ w3 = w0)) ∧
      tidy_path p =
        ((strip_leading (strip_trailing w3.length w3 ch3).2
            (strip_trailing w3.length w3 ch3).1).1,
         (strip_leading (strip_trailing w3.length w3 ch3).2
            (strip_trailing w3.length w3 ch3).1).2.take (PATH_MAX - 1)) := by
  have hpm : PATH_MAX = 4096 := rfl
  have hplen : 0 < p.length := List.length_pos.mpr hp
  obtain ⟨w0, hw0, hne0, hl0⟩ : ∃ w0 : List Char,
      w0 = (if p.length + 2 < PATH_MAX * 2 ∧ p.getLast? ≠ some '/' then
        (p ++ sSlash).take (PATH_MAX * 2 - 1) else p.take (PATH_MAX * 2 - 1)) ∧
      w0 ≠ [] ∧ w0.length < PATH_MAX * 2 := by
    refine ⟨_, rfl, ?_, ?_⟩
    · apply List.ne_nil_of_length_pos
      split <;> simp [List.length_take, sSlash] <;> omega
    · split <;> simp [List.length_take, sSlash] <;> omega
  obtain ⟨ch1, w1, h1, c1, n1⟩ := phase_replace sDotSlash ['.'] rfl w0 0 (by omega) hne0
  have f1 : (tidy_replace_while sDotSlash (w0.length + 1) w0 0).1 = 1 ∨
      tidy_replace_while sDotSlash (w0.length + 1) w0 0 = (0, w0) :=
    tidy_replace_while_flag ['.'] _ w0 0
  rw [h1] at f1
  have l1 := cuts_length _ _ c1
  obtain ⟨ch2, w2, h2, c2, n2⟩ := phase_replace sSlashSlash [] rfl w1 ch1 (by omega)
    (cuts_ne_nil _ _ c1 hne0)
  have f2 : (tidy_replace_while sSlashSlash (w1.length + 1) w1 ch1).1 = 1 ∨
      tidy_replace_while sSlashSlash (w1.length + 1) w1 ch1 = (ch1, w1) :=
    tidy_replace_while_flag [] _ w1 ch1
  rw [h2] at f2
  have l2 := cuts_length _ _ c2
  have n21 := cuts_no3 '/' '.' '/' (by decide) _ _ c2 n1
  obtain ⟨ch3, w3, h3, c3, n3⟩ := phase_collapse w2 ch2 (by omega)
  have f3 := collapse_loop_flag (w2.length + 1) w2 ch2
  rw [h3] at f3
  have n31 := cuts_no3 '/' '.' '/' (by decide) _ _ c3 n21
  have n32 := cuts_no2 '/' '/' _ _ c3 n2
  refine ⟨w0, w3, ch3, hw0, hne0, hl0, (c1.trans c2).trans c3, n32, n31, n3, ?_, ?_⟩
  · simp only [Prod.mk.injEq] at f1 f2 f3
    rcases f3 with f3 | ⟨f3, g3⟩
    · exact Or.inl f3
    · rcases f2 with f2 | ⟨f2, g2⟩
      · exact Or.inl (by rw [f3, f2])
      · rcases f1 with f1 | ⟨f1, g1⟩
        · exact Or.inl (by rw [f3, f2, f1])
        · exact Or.inr ⟨by rw [f3, f2, f1], by rw [g3, g2, g1]⟩
  · unfold tidy_path
    rw [if_neg (by simpa using hp)]
    simp only [← hw0, h1, h2, h3]

/-- The flag tidy_path returns is 0 or 1, and a non-empty path comes back
with at most PATH_MAX - 1 characters. -/
theorem tidy_path_flag_range (p : List Char) :
    ((tidy_path p).1 = 0 ∨ (tidy_path p).1 = 1) ∧
    (p ≠ [] → (tidy_path p).2.length ≤ PATH_MAX - 1) := by
  by_cases hp : p = []
  · subst hp
    exact ⟨Or.inl (by decide), fun h => absurd rfl h⟩
  · obtain ⟨w0, w3, ch3, -, -, -, -, -, -, -, hch, e⟩ := tidy_path_run p hp
    rw [e]
    refine ⟨?_, fun _ => by simp [List.length_take]⟩
    dsimp only
    have hc3 : ch3 = 0 ∨ ch3 = 1 := by
      rcases hch with h | ⟨h, -⟩
      · exact Or.inr h
      · exact Or.inl h
    rcases strip_leading_flag (strip_trailing w3.length w3 ch3).2
      (strip_trailing w3.length w3 ch3).1 with h | h
    · exact Or.inr h
    · rw [h]
      dsimp only
      rcases strip_trailing_flag w3.length w3 ch3 with h' | h'
      · exact Or.inr h'
      · rw [h']; exact hc3

theorem tidy_path_clean_long (r : List Char) (hne : r ≠ []) (hl : r.getLast? ≠ some '/')
    (hlen : r.length + 2 < PATH_MAX * 2) (hc : Clean (r ++ ['/']))
    (hd : ¬ ['.', '/'] <+: r) :
    tidy_path r = (1, r.take (PATH_MAX - 1)) := by
  obtain ⟨-, c2, c3, c4⟩ := hc
  unfold tidy_path
  rw [if_neg (by simpa using hne)]
  have hw0 : (if r.length + 2 < PATH_MAX * 2 ∧ r.getLast? ≠ some '/' then
        (r ++ sSlash).take (PATH_MAX * 2 - 1) else r.take (PATH_MAX * 2 - 1))
      = r ++ ['/'] := by
    rw [if_pos ⟨hlen, hl⟩, List.take_of_length_le (by simp [sSlash]; omega)]
    rfl
  simp only [hw0]
  rw [tidy_replace_while_none _ _ _ _ c3]
  simp only
  rw [tidy_replace_while_none _ _ _ _ c2]
  simp only
  rw [collapse_loop_none _ _ _ c4]
  simp only
  have : (r ++ ['/']).length = r.length + 1 := by simp
  rw [this, strip_trailing_one _ _ _ hne hl]
  simp only
  rw [strip_leading_id r 1 hd]

theorem no_slash_pattern_in_name (n : Nat) (c : Char) (rest : List Char) :
    ¬ ('/' :: c :: rest) <:+: List.replicate n 'a' ++ ['/'] := by
  induction n with
  | zero =>
    intro h
    have := h.length_le
    simp at this
  | succ n ih =>
    rw [List.replicate_succ, List.cons_append, List.infix_cons_iff]
    rintro (h | h)
    · rw [List.cons_prefix_cons] at h
      exact absurd h.1 (by decide)
    · exact ih h

theorem tidy_path_name (n : Nat) (hn : 0 < n) (hlen : n + 2 < PATH_MAX * 2) :
    tidy_path (List.replicate n 'a') = (1, List.replicate (min (PATH_MAX - 1) n) 'a') := by
  obtain ⟨m, rfl⟩ : ∃ m, n = m + 1 := ⟨n - 1, by omega⟩
  have hne : List.replicate (m + 1) 'a' ≠ [] := by
    rw [List.replicate_succ]; exact List.cons_ne_nil _ _
  have hlast : (List.replicate (m + 1) 'a').getLast? ≠ some '/' := by
    rw [List.replicate_succ', List.getLast?_append_of_ne_nil _ (by simp)]
    decide
  have hd : ¬ ['.', '/'] <+: List.replicate (m + 1) 'a' := by
    rw [List.replicate_succ, List.cons_prefix_cons]
    exact fun h => absurd h.1 (by decide)
  have h := tidy_path_clean_long (List.replicate (m + 1) 'a') hne hlast
    (by rw [List.length_replicate]; exact hlen)
    ⟨by rw [List.getLast?_append_of_ne_nil _ (by simp)]; rfl,
      no_slash_pattern_in_name _ _ _, no_slash_pattern_in_name _ _ _,
      no_slash_pattern_in_name _ _ _⟩ hd
  rw [h, List.take_replicate]

/-- C14 as stated fails: a path of 5000 letters comes back cut to its first
4095 letters with the ordinary flag 1, and no failure is signalled. -/
theorem tidy_path_truncates_silently :
    tidy_path (List.replicate 5000 'a') = (1, List.replicate 4095 'a') :=
  tidy_path_name 5000 (by decide) (by decide)

/-- C14, amended: for every input path, whatever its length, tidy_path
returns only its changed flag, 0 or 1, and no failure; a non-empty path comes
back cut to at most PATH_MAX - 1 characters. -/
theorem tidy_path_never_fails (p : List Char) :
    ((tidy_path p).1 = 0 ∨ (tidy_path p).1 = 1) ∧
    (p ≠ [] → (tidy_path p).2.length ≤ PATH_MAX - 1) :=
  tidy_path_flag_range p

/-- The path "a" comes back whole with flag 1: the flag of a cut path is the
ordinary one. -/
theorem tidy_path_name_short : tidy_path ['a'] = (1, ['a']) :=
  tidy_path_name 1 (by decide) (by decide)

/-! ### tidy_path: the normal form of the result -/

theorem tidy_path_result_shape (p : List Char) (hp : p ≠ []) (hl : p.length < PATH_MAX) :
    (tidy_path p).2 = ['/'] ∨
    ∃ x, Clean (x ++ ['/']) ∧ x ≠ [] ∧ x.getLast? ≠ some '/' ∧
      (tidy_path p).2 <:+ x ∧ (tidy_path p).2 ≠ [] ∧
      (tidy_path p).2.getLast? = x.getLast? ∧ ¬ ['.', '/'] <+: (tidy_path p).2 := by
  have hpm : PATH_MAX = 4096 := rfl
  obtain ⟨w3, ch3, hc, hw, e⟩ := tidy_path_eq p hp hl
  rw [e]
  dsimp only
  rcases hc.shape with rfl | ⟨x, rfl, hx, hxl⟩
  · left
    rw [strip_trailing_root]
    dsimp only
    rw [strip_leading_id _ _ (by rintro ⟨t, ht⟩; cases ht)]
    rfl
  · right
    have hlen : (x ++ ['/']).length = x.length + 1 := by simp
    rw [hlen] at hw ⊢
    rw [strip_trailing_one _ _ _ hx hxl]
    dsimp only
    obtain ⟨s1, s2, s3⟩ := strip_leading_spec x 1
    obtain ⟨s4, s5⟩ := s3 hx hxl
    have hrl : (strip_leading x 1).2.length ≤ x.length := s1.length_le
    rw [List.take_of_length_le (by omega)]
    exact ⟨x, hc, hx, hxl, s1, s4, s5, s2⟩

/-- C17: for every non-empty path shorter than PATH_MAX the result of
tidy_path is non-empty, holds none of "//", "/./" and "/../", ends in '/'
only when it is "/", and does not begin with "./". -/
theorem tidy_path_normal_form (p : List Char) (hp : p ≠ []) (hl : p.length < PATH_MAX) :
    (tidy_path p).2 ≠ [] ∧
    ¬ sSlashSlash <:+: (tidy_path p).2 ∧
    ¬ sDotSlash <:+: (tidy_path p).2 ∧
    ¬ sDotDotSlash <:+: (tidy_path p).2 ∧
    ((tidy_path p).2.getLast? = some '/' → (tidy_path p).2 = ['/']) ∧
    ¬ ['.', '/'] <+: (tidy_path p).2 := by
  rcases tidy_path_result_shape p hp hl with h | ⟨x, hc, hx, hxl, s1, s4, s5, s2⟩
  · rw [h]
    refine ⟨by simp, ?_, ?_, ?_, fun _ => rfl, ?_⟩
    · intro h; have := h.length_le; simp [sSlashSlash] at this
    · intro h; have := h.length_le; simp [sDotSlash] at this
    · intro h; have := h.length_le; simp [sDotDotSlash] at this
    · rintro ⟨t, ht⟩; cases ht
  · have hin : (tidy_path p).2 <:+: x ++ ['/'] :=
      s1.isInfix.trans ⟨[], ['/'], by simp⟩
    obtain ⟨-, c2, c3, c4⟩ := hc
    refine ⟨s4, fun h => c2 (h.trans hin), fun h => c3 (h.trans hin),
      fun h => c4 (h.trans hin), fun h => ?_, s2⟩
    rw [s5] at h
    exact absurd h hxl

/-- C17 witness: the path /tree/a/../b/file. -/
theorem tidy_path_normal_form_witness :
    (tidy_path "/tree/a/../b/file".toList).2 ≠ [] ∧
    ¬ sSlashSlash <:+: (tidy_path "/tree/a/../b/file".toList).2 ∧
    ¬ sDotSlash <:+: (tidy_path "/tree/a/../b/file".toList).2 ∧
    ¬ sDotDotSlash <:+: (tidy_path "/tree/a/../b/file".toList).2 ∧
    ((tidy_path "/tree/a/../b/file".toList).2.getLast? = some '/' →
      (tidy_path "/tree/a/../b/file".toList).2 = ['/']) ∧
    ¬ ['.', '/'] <+: (tidy_path "/tree/a/../b/file".toList).2 :=
  tidy_path_normal_form "/tree/a/../b/file".toList (by decide) (by decide)

/-! ### fix_symlink: when a link is rewritten -/

theorem strip_trailing_fires (fuel : Nat) (w : List Char) (ch : Int)
    (h1 : w.length > 1) (h2 : w.getLast? = some '/') :
    (strip_trailing (fuel + 1) w ch).1 = 1 := by
  rw [strip_trailing, if_pos ⟨h1, h2⟩]
  rcases strip_trailing_flag fuel w.dropLast 1 with h | h
  · exact h
  · rw [h]

theorem tidy_path_flag_zero (p : List Char) (hlen : p.length + 2 < PATH_MAX * 2)
    (h0 : (tidy_path p).1 = 0) : (tidy_path p).2 = p := by
  have hpm : PATH_MAX = 4096 := rfl
  by_cases hp : p = []
  · subst hp; decide
  · obtain ⟨w0, w3, ch3, hw0, hne0, hl0, -, -, -, -, hch, e⟩ := tidy_path_run p hp
    rw [e] at h0 ⊢
    dsimp only at h0 ⊢
    have hplen : 0 < p.length := List.length_pos.mpr hp
    rcases strip_leading_flag (strip_trailing w3.length w3 ch3).2
      (strip_trailing w3.length w3 ch3).1 with h | h
    · rw [h] at h0; exact absurd h0 (by decide)
    · rw [h] at h0 ⊢
      dsimp only at h0 ⊢
      rcases strip_trailing_flag w3.length w3 ch3 with h' | h'
      · rw [h'] at h0; exact absurd h0 (by decide)
      · rw [h'] at h0 ⊢
        dsimp only at h0 ⊢
        rcases hch with hc | ⟨-, hw⟩
        · rw [hc] at h0; exact absurd h0 (by decide)
        · subst hw
          have hnf : ¬ (w3.length > 1 ∧ w3.getLast? = some '/') := by
            rintro ⟨a, b⟩
            obtain ⟨f, hf⟩ : ∃ f, w3.length = f + 1 := ⟨w3.length - 1, by omega⟩
            have := strip_trailing_fires f w3 ch3 a b
            rw [← hf, h', h0] at this
            simp at this
          by_cases hb : p.length + 2 < PATH_MAX * 2 ∧ p.getLast? ≠ some '/'
          · exfalso
            rw [if_pos hb, List.take_of_length_le (by simp [sSlash]; omega)] at hw0
            apply hnf
            rw [hw0]
            exact ⟨by simp [sSlash]; omega, by simp [sSlash]⟩
          · rw [if_neg hb, List.take_of_length_le (by omega)] at hw0
            subst hw0
            have hlast : w3.getLast? = some '/' := by
              by_contra hc
              exact hb ⟨hlen, hc⟩
            have : w3.length ≤ 1 := by
              by_contra hc
              exact hnf ⟨by omega, hlast⟩
            exact List.take_of_length_le (by omega)

theorem shorten_loop_flag (base_path : List Char) (fuel : Nat) (l : List Char) (sh : Int) :
    (shorten_loop base_path fuel l sh).1 = 1 ∨ shorten_loop base_path fuel l sh = (sh, l) := by
  induction fuel generalizing l sh with
  | zero => exact Or.inr rfl
  | succ fuel ih =>
    rw [shorten_loop]
    split
    · exact Or.inr rfl
    · split
      · exact Or.inr rfl
      · split
        · exact Or.inr rfl
        · left
          rcases ih _ 1 with h | h
          · exact h
          · rw [h]

theorem shorten_path_flag_zero (l b : List Char) (h0 : (shorten_path l b).1 = 0) :
    (shorten_path l b).2 = l := by
  unfold shorten_path at h0 ⊢
  split
  · rfl
  · rename_i hc
    rw [if_neg hc] at h0
    rcases shorten_loop_flag b (l.length + 1) l 0 with h | h
    · rw [h] at h0; exact absurd h0 (by decide)
    · rw [h]

theorem candidate_unchanged (cfg : Config) (symlink_path link_value : List Char)
    (hlen : link_value.length ≤ PATH_MAX)
    (h : (candidate cfg symlink_path link_value).2 = false) :
    (candidate cfg symlink_path link_value).1 = link_value := by
  have hpm : PATH_MAX = 4096 := rfl
  unfold candidate at h ⊢
  rw [List.take_of_length_le hlen] at h ⊢
  dsimp only at h ⊢
  cases hs : cfg.g_shorten with
  | true =>
    simp only [hs, if_true] at h ⊢
    split_ifs at h ⊢ with he
    · exact he
    · simp only [decide_eq_false_iff_not, not_or, not_not] at h
      exfalso
      apply he
      rw [shorten_path_flag_zero _ _ h.2, tidy_path_flag_zero link_value (by omega) h.1]
  | false =>
    simp only [hs, Bool.false_eq_true, if_false] at h ⊢
    split_ifs at h ⊢ with he
    · exact he
    · simp only [decide_eq_false_iff_not, not_or, not_not] at h
      exfalso
      exact he (tidy_path_flag_zero link_value (by omega) h.1)

theorem fix_symlink_found_trace (env : Env) (cfg : Config) (symlink_path : List Char)
    (base_dev : Nat) (link_value : List Char) (stbuf : Stat)
    (hlen : link_value.length ≤ PATH_MAX)
    (hu : env.unlink symlink_path = true) (hs : ∀ n, env.symlink n symlink_path = true) :
    ∃ report : List Event, (∀ e ∈ report, ∃ r l w, e = Event.print r l w) ∧
      fix_symlink_found env cfg symlink_path base_dev link_value
        (abs_resolved symlink_path link_value) stbuf =
      if ¬ (cfg.g_single_fs = true ∧ stbuf.st_dev ≠ base_dev) ∧ cfg.g_testing = false ∧
          final_candidate env cfg symlink_path link_value ≠ link_value then
        report ++ [Event.sys_unlink symlink_path,
          Event.sys_symlink (final_candidate env cfg symlink_path link_value) symlink_path,
          Event.print Report.changed symlink_path
            (final_candidate env cfg symlink_path link_value)]
      else report := by
  have hv := verbose_report_prints cfg symlink_path link_value
    (candidate cfg symlink_path link_value).2
  unfold fix_symlink_found
  dsimp only
  by_cases c1 : cfg.g_single_fs = true ∧ stbuf.st_dev ≠ base_dev
  · have hc : ¬ (¬ (cfg.g_single_fs = true ∧ stbuf.st_dev ≠ base_dev) ∧
        cfg.g_testing = false ∧
        final_candidate env cfg symlink_path link_value ≠ link_value) := fun h => h.1 c1
    refine ⟨if cfg.g_verbose = true then
      [Event.print Report.other_fs symlink_path link_value] else [], ?_, ?_⟩
    · intro e he
      split_ifs at he
      · exact ⟨_, _, _, List.mem_singleton.mp he⟩
      · simp at he
    · simp only [if_pos c1, if_neg hc]
  · by_cases c2 : (¬ cfg.g_fix_links = true ∧ ¬ cfg.g_testing = true) ∧
        ¬ (candidate cfg symlink_path link_value).2 = true
    · have hc : ¬ (¬ (cfg.g_single_fs = true ∧ stbuf.st_dev ≠ base_dev) ∧
          cfg.g_testing = false ∧
          final_candidate env cfg symlink_path link_value ≠ link_value) := by
        rintro ⟨-, -, hne⟩
        apply hne
        unfold final_candidate convert
        rw [if_neg (fun h => c2.1.1 h.1)]
        exact candidate_unchanged cfg symlink_path link_value hlen (by simpa using c2.2)
      refine ⟨_, hv, ?_⟩
      simp only [if_neg c1, if_pos c2, if_neg hc]
    · by_cases c3 : cfg.g_testing = true
      · have hc : ¬ (¬ (cfg.g_single_fs = true ∧ stbuf.st_dev ≠ base_dev) ∧
            cfg.g_testing = false ∧
            final_candidate env cfg symlink_path link_value ≠ link_value) := by
          rintro ⟨-, h, -⟩
          rw [c3] at h
          cases h
        refine ⟨verbose_report cfg symlink_path link_value
          (candidate cfg symlink_path link_value).2 ++
          [Event.print Report.would_change symlink_path
            (final_candidate env cfg symlink_path link_value)], ?_, ?_⟩
        · intro e he
          rcases List.mem_append.mp he with h | h
          · exact hv e h
          · exact ⟨_, _, _, List.mem_singleton.mp h⟩
        · simp only [if_neg c1, if_neg c2, if_pos c3, if_neg hc]
          rfl
      · by_cases c4 : final_candidate env cfg symlink_path link_value = link_value
        · have hc : ¬ (¬ (cfg.g_single_fs = true ∧ stbuf.st_dev ≠ base_dev) ∧
              cfg.g_testing = false ∧
              final_candidate env cfg symlink_path link_value ≠ link_value) :=
            fun h => h.2.2 c4
          have c4' : convert env cfg symlink_path link_value
              (abs_resolved symlink_path link_value)
              (candidate cfg symlink_path link_value).1 = link_value := c4
          refine ⟨_, hv, ?_⟩
          simp only [if_neg c1, if_neg c2, if_neg c3, if_pos c4', if_neg hc]
        · have hc : ¬ (cfg.g_single_fs = true ∧ stbuf.st_dev ≠ base_dev) ∧
              cfg.g_testing = false ∧
              final_candidate env cfg symlink_path link_value ≠ link_value :=
            ⟨c1, by simpa using c3, c4⟩
          have c4' : ¬ convert env cfg symlink_path link_value
              (abs_resolved symlink_path link_value)
              (candidate cfg symlink_path link_value).1 = link_value := c4
          have hu' : ¬ ¬ env.unlink symlink_path = true := by simp [hu]
          have hs' : ¬ ¬ env.symlink (convert env cfg symlink_path link_value
              (abs_resolved symlink_path link_value)
              (candidate cfg symlink_path link_value).1) symlink_path = true := by
            simp [hs]
          refine ⟨_, hv, ?_⟩
          simp only [if_neg c1, if_neg c2, if_neg c3, if_neg c4', if_neg hu', if_neg hs',
            if_pos hc]
          rfl

/-- C16: for a link whose target text was read, with unlink and symlink
succeeding, fix_symlink removes and recreates the link exactly when the target
probe succeeds, the single-filesystem rule does not stop it, test mode is off
and the final candidate differs from the raw target; a link is only ever
created with the final candidate, after the unlink; and when the candidate
equals the raw target no link is created, and no unlink happens once the probe
has succeeded. -/
theorem rewrite_iff (env : Env) (cfg : Config) (symlink_path : List Char) (base_dev : Nat)
    (value : List Char) (hr : env.readlink symlink_path = some value)
    (hu : env.unlink symlink_path = true) (hs : ∀ n, env.symlink n symlink_path = true) :
    ((Event.sys_unlink symlink_path ∈ fix_symlink env cfg symlink_path base_dev ∧
      Event.sys_symlink (final_candidate env cfg symlink_path (value.take PATH_MAX))
        symlink_path ∈ fix_symlink env cfg symlink_path base_dev) ↔
      ∃ st, env.stat (abs_resolved symlink_path (value.take PATH_MAX)) = some st ∧
        ¬ (cfg.g_single_fs = true ∧ st.st_dev ≠ base_dev) ∧ cfg.g_testing = false ∧
        final_candidate env cfg symlink_path (value.take PATH_MAX) ≠ value.take PATH_MAX) ∧
    (∀ n p, Event.sys_symlink n p ∈ fix_symlink env cfg symlink_path base_dev →
      n = final_candidate env cfg symlink_path (value.take PATH_MAX) ∧ p = symlink_path ∧
      Event.sys_unlink symlink_path ∈ fix_symlink env cfg symlink_path base_dev) ∧
    (final_candidate env cfg symlink_path (value.take PATH_MAX) = value.take PATH_MAX →
      (∀ n p, Event.sys_symlink n p ∉ fix_symlink env cfg symlink_path base_dev) ∧
      (env.stat (abs_resolved symlink_path (value.take PATH_MAX)) ≠ none →
        ∀ p, Event.sys_unlink p ∉ fix_symlink env cfg symlink_path base_dev)) := by
  have hlen : (value.take PATH_MAX).length ≤ PATH_MAX := by simp [List.length_take]
  unfold fix_symlink
  simp only [hr]
  cases hst : env.stat (abs_resolved symlink_path (value.take PATH_MAX)) with
  | none =>
    have hno : ∀ n p, Event.sys_symlink n p ∉
        (if cfg.g_verbose = true then
          [Event.print Report.dangling symlink_path (value.take PATH_MAX)] else []) ++
        (if cfg.g_delete = true then
          (if env.unlink symlink_path = true then
            [Event.sys_unlink symlink_path,
              Event.print Report.deleted symlink_path (value.take PATH_MAX)]
           else [Event.sys_unlink symlink_path, Event.diag symlink_path])
         else []) := by
      intro n p h
      rcases List.mem_append.mp h with h | h
      · split_ifs at h <;> simp at h
      · split_ifs at h <;> simp at h
    refine ⟨⟨fun h => absurd h.2 (hno _ _), fun ⟨st, h, _⟩ => by cases h⟩,
      fun n p h => absurd h (hno n p), fun _ => ⟨hno, fun h => absurd rfl h⟩⟩
  | some st =>
    obtain ⟨report, hrep, e⟩ := fix_symlink_found_trace env cfg symlink_path base_dev
      (value.take PATH_MAX) st hlen hu hs
    simp only [e]
    have hrs : ∀ n p, Event.sys_symlink n p ∉ report := by
      intro n p h
      obtain ⟨r, l, w, h'⟩ := hrep _ h
      cases h'
    have hru : ∀ p, Event.sys_unlink p ∉ report := by
      intro p h
      obtain ⟨r, l, w, h'⟩ := hrep _ h
      cases h'
    by_cases hc : ¬ (cfg.g_single_fs = true ∧ st.st_dev ≠ base_dev) ∧
        cfg.g_testing = false ∧
        final_candidate env cfg symlink_path (value.take PATH_MAX) ≠ value.take PATH_MAX
    · rw [if_pos hc]
      refine ⟨⟨fun _ => ⟨st, rfl, hc⟩, fun _ => ⟨by simp, by simp⟩⟩, fun n p h => ?_,
        fun h => absurd h hc.2.2⟩
      rcases List.mem_append.mp h with h | h
      · exact absurd h (hrs n p)
      · simp at h
        exact ⟨h.1, h.2, by simp⟩
    · rw [if_neg hc]
      refine ⟨⟨fun h => absurd h.1 (hru _), fun ⟨st', h, h'⟩ => ?_⟩,
        fun n p h => absurd h (hrs n p), fun _ => ⟨hrs, fun _ => hru⟩⟩
      cases h
      exact absurd h' hc

/-- C16 witness: the scenario link /tree/a/link1 with fix_links set. -/
theorem rewrite_iff_witness :
    ((Event.sys_unlink "/tree/a/link1".toList ∈
        fix_symlink (tree_env tree_scenario "/tree/a/link1".toList "/tree/a/../b/file".toList)
          { default_config with g_fix_links := true } "/tree/a/link1".toList 0 ∧
      Event.sys_symlink
        (final_candidate
          (tree_env tree_scenario "/tree/a/link1".toList "/tree/a/../b/file".toList)
          { default_config with g_fix_links := true } "/tree/a/link1".toList
          ("/tree/a/../b/file".toList.take PATH_MAX))
        "/tree/a/link1".toList ∈
        fix_symlink (tree_env tree_scenario "/tree/a/link1".toList "/tree/a/../b/file".toList)
          { default_config with g_fix_links := true } "/tree/a/link1".toList 0) ↔
      ∃ st, (tree_env tree_scenario "/tree/a/link1".toList "/tree/a/../b/file".toList).stat
          (abs_resolved "/tree/a/link1".toList ("/tree/a/../b/file".toList.take PATH_MAX))
          = some st ∧
        ¬ (({ default_config with g_fix_links := true } : Config).g_single_fs = true ∧
          st.st_dev ≠ 0) ∧
        ({ default_config with g_fix_links := true } : Config).g_testing = false ∧
        final_candidate
          (tree_env tree_scenario "/tree/a/link1".toList "/tree/a/../b/file".toList)
          { default_config with g_fix_links := true } "/tree/a/link1".toList
          ("/tree/a/../b/file".toList.take PATH_MAX) ≠
          "/tree/a/../b/file".toList.take PATH_MAX) ∧
    (∀ n p, Event.sys_symlink n p ∈
        fix_symlink (tree_env tree_scenario "/tree/a/link1".toList "/tree/a/../b/file".toList)
          { default_config with g_fix_links := true } "/tree/a/link1".toList 0 →
      n = final_candidate
          (tree_env tree_scenario "/tree/a/link1".toList "/tree/a/../b/file".toList)
          { default_config with g_fix_links := true } "/tree/a/link1".toList
          ("/tree/a/../b/file".toList.take PATH_MAX) ∧
      p = "/tree/a/link1".toList ∧
      Event.sys_unlink "/tree/a/link1".toList ∈
        fix_symlink (tree_env tree_scenario "/tree/a/link1".toList "/tree/a/../b/file".toList)
          { default_config with g_fix_links := true } "/tree/a/link1".toList 0) ∧
    (final_candidate
        (tree_env tree_scenario "/tree/a/link1".toList "/tree/a/../b/file".toList)
        { default_config with g_fix_links := true } "/tree/a/link1".toList
        ("/tree/a/../b/file".toList.take PATH_MAX) =
        "/tree/a/../b/file".toList.take PATH_MAX →
      (∀ n p, Event.sys_symlink n p ∉
        fix_symlink (tree_env tree_scenario "/tree/a/link1".toList "/tree/a/../b/file".toList)
          { default_config with g_fix_links := true } "/tree/a/link1".toList 0) ∧
      ((tree_env tree_scenario "/tree/a/link1".toList "/tree/a/../b/file".toList).stat
          (abs_resolved "/tree/a/link1".toList ("/tree/a/../b/file".toList.take PATH_MAX))
          ≠ none →
        ∀ p, Event.sys_unlink p ∉
          fix_symlink
            (tree_env tree_scenario "/tree/a/link1".toList "/tree/a/../b/file".toList)
            { default_config with g_fix_links := true } "/tree/a/link1".toList 0)) :=
  rewrite_iff (tree_env tree_scenario "/tree/a/link1".toList "/tree/a/../b/file".toList)
    { default_config with g_fix_links := true } "/tree/a/link1".toList 0
    "/tree/a/../b/file".toList (by decide) rfl (fun _ => rfl)

/-! ### tidy_path on repeated "/../" -/

theorem Cut.head (s R : List Char) (h : Cut s R) (hs : s.head? = some '/') :
    R.head? = some '/' := by
  obtain ⟨-, A, B, rfl, -, hA⟩ := h
  rcases hA with rfl | ⟨t, ht⟩
  · rfl
  · cases A with
    | nil => rfl
    | cons a A =>
      rw [← ht] at hs
      simpa using hs

theorem Cut.chars (P : Char → Prop) (s R : List Char) (h : Cut s R)
    (hs : ∀ c ∈ s, P c) : ∀ c ∈ R, P c := by
  obtain ⟨-, A, B, rfl, ⟨t, hB⟩, hA⟩ := h
  intro c hc
  have hBs : ∀ c ∈ '/' :: B, P c := fun c hc => hs c (by rw [← hB]; simp [hc])
  rcases hA with rfl | ⟨u, hu⟩
  · exact hBs c (by simpa using hc)
  · rcases List.mem_append.mp hc with h | h
    · exact hs c (by rw [← hu]; simp [h])
    · exact hBs c h

theorem Cut.tail3 (x y z : Char) (hy : y ≠ '/') (hz : z ≠ '/') (s R : List Char)
    (h : Cut s R) (hs : [x, y, z] <:+ s) : [x, y, z] <:+ R := by
  obtain ⟨-, A, B, rfl, hB, -⟩ := h
  rcases List.suffix_or_suffix_of_suffix hs hB with h1 | h1
  · exact h1.trans ⟨A, rfl⟩
  · obtain ⟨t, ht⟩ := h1
    have hl := congrArg List.length ht
    simp only [List.length_append, List.length_cons, List.length_nil] at hl
    cases t with
    | nil =>
      rw [List.nil_append] at ht
      rw [ht]
      exact ⟨A, rfl⟩
    | cons a t =>
      exfalso
      cases t with
      | nil =>
        cases B with
        | nil => simp at hl
        | cons b B =>
          simp only [List.singleton_append, List.cons.injEq] at ht
          exact hy ht.2.1.symm
      | cons b t =>
        cases t with
        | nil =>
          simp only [List.cons_append, List.nil_append, List.cons.injEq] at ht
          exact hz ht.2.2.1.symm
        | cons c t => simp at hl; omega

theorem cuts_head (s R : List Char) (h : Relation.ReflTransGen Cut s R)
    (hs : s.head? = some '/') : R.head? = some '/' := by
  induction h with
  | refl => exact hs
  | tail _ h2 ih => exact Cut.head _ _ h2 ih

theorem cuts_chars (P : Char → Prop) (s R : List Char) (h : Relation.ReflTransGen Cut s R)
    (hs : ∀ c ∈ s, P c) : ∀ c ∈ R, P c := by
  induction h with
  | refl => exact hs
  | tail _ h2 ih => exact Cut.chars P _ _ h2 ih

theorem cuts_tail3 (x y z : Char) (hy : y ≠ '/') (hz : z ≠ '/') (s R : List Char)
    (h : Relation.ReflTransGen Cut s R) (hs : [x, y, z] <:+ s) : [x, y, z] <:+ R := by
  induction h with
  | refl => exact hs
  | tail _ h2 ih => exact Cut.tail3 x y z hy hz _ _ h2 ih

/-- A string of slashes and dots that starts with '/' and holds none of "//",
"/./", "/../" and "..." is "/", "/." or "/..". -/
theorem dots_shape (w : List Char) (hh : w.head? = some '/')
    (hc : ∀ c ∈ w, c = '/' ∨ c = '.')
    (h2 : ¬ sSlashSlash <:+: w) (h3 : ¬ sDotSlash <:+: w) (h4 : ¬ sDotDotSlash <:+: w)
    (h5 : ¬ ['.', '.', '.'] <:+: w) :
    w = ['/'] ∨ w = ['/', '.'] ∨ w = ['/', '.', '.'] := by
  cases w with
  | nil => simp at hh
  | cons c0 r0 =>
    simp only [List.head?_cons, Option.some.injEq] at hh
    subst hh
    cases r0 with
    | nil => exact Or.inl rfl
    | cons c1 r1 =>
      rcases hc c1 (by simp) with rfl | rfl
      · exact absurd ⟨[], r1, rfl⟩ h2
      · cases r1 with
        | nil => exact Or.inr (Or.inl rfl)
        | cons c2 r2 =>
          rcases hc c2 (by simp) with rfl | rfl
          · exact absurd ⟨[], r2, rfl⟩ h3
          · cases r2 with
            | nil => exact Or.inr (Or.inr rfl)
            | cons c3 r3 =>
              rcases hc c3 (by simp) with rfl | rfl
              · exact absurd ⟨[], r3, rfl⟩ h4
              · exact absurd ⟨['/'], r3, rfl⟩ h5

theorem dotdots_succ (n : Nat) : dotdots (n + 1) = sDotDotSlash ++ dotdots n := by
  unfold dotdots
  rw [List.replicate_succ, List.flatten_cons]

theorem dotdots_succ_end (n : Nat) : dotdots (n + 1) = dotdots n ++ sDotDotSlash := by
  induction n with
  | zero => rfl
  | succ n ih =>
    rw [dotdots_succ (n + 1), ih, ← List.append_assoc, ← dotdots_succ n, ih]

theorem dotdots_length (n : Nat) : (dotdots n).length = 4 * n := by
  induction n with
  | zero => rfl
  | succ n ih =>
    rw [dotdots_succ, List.length_append, ih]
    simp [sDotDotSlash]
    omega

theorem dotdots_chars (n : Nat) : ∀ c ∈ dotdots n, c = '/' ∨ c = '.' := by
  induction n with
  | zero => intro c hc; simp [dotdots] at hc
  | succ n ih =>
    intro c hc
    rw [dotdots_succ] at hc
    rcases List.mem_append.mp hc with h | h
    · simp [sDotDotSlash] at h
      tauto
    · exact ih c h

theorem dotdots_head (n : Nat) (hn : 1 ≤ n) : (dotdots n).head? = some '/' := by
  obtain ⟨m, rfl⟩ : ∃ m, n = m + 1 := ⟨n - 1, by omega⟩
  rw [dotdots_succ]
  rfl

theorem dotdots_last (n : Nat) (hn : 1 ≤ n) : (dotdots n).getLast? = some '/' := by
  obtain ⟨m, rfl⟩ : ∃ m, n = m + 1 := ⟨n - 1, by omega⟩
  rw [dotdots_succ_end, List.getLast?_append_of_ne_nil _ (by simp [sDotDotSlash])]
  rfl

theorem dotdots_no_dots (n : Nat) : ¬ ['.', '.', '.'] <:+: dotdots n := by
  induction n with
  | zero =>
    intro h
    have := h.length_le
    simp [dotdots] at this
  | succ n ih =>
    rw [dotdots_succ]
    intro h
    have e : sDotDotSlash ++ dotdots n = ['/', '.', '.'] ++ '/' :: dotdots n := rfl
    rw [e] at h
    rcases infix3_of_splice '.' '.' '.' '/' (by decide) _ _ h with h | h
    · obtain ⟨a, b, hab⟩ := h
      have hl := congrArg List.length hab
      simp only [List.length_append, List.length_cons, List.length_nil] at hl
      have ha : a.length ≤ 1 := by omega
      match a, ha, hab with
      | [], _, hab => simp at hab
      | [x], _, hab => simp at hab
    · rw [List.infix_cons_iff] at h
      rcases h with h | h
      · rw [List.cons_prefix_cons] at h
        exact absurd h.1 (by decide)
      · exact ih h

/-- The three ways the string after the collapsing loops is turned into the
result, for "/" and "/..". -/
theorem tidy_finish_root (ch : Int) :
    (strip_leading (strip_trailing ['/'].length ['/'] ch).2
      (strip_trailing ['/'].length ['/'] ch).1).2.take (PATH_MAX - 1) = ['/'] := by
  rw [strip_trailing_root]
  dsimp only
  rw [strip_leading_id _ _ (by rintro ⟨t, ht⟩; cases ht)]
  rfl

theorem tidy_finish_parent (ch : Int) :
    (strip_leading (strip_trailing ['/', '.', '.'].length ['/', '.', '.'] ch).2
      (strip_trailing ['/', '.', '.'].length ['/', '.', '.'] ch).1).2.take (PATH_MAX - 1)
      = ['/', '.', '.'] := by
  rw [strip_trailing_stop _ _ _ (by simp)]
  dsimp only
  rw [strip_leading_id _ _ (by rintro ⟨t, ht⟩; cases ht)]
  rfl

theorem tidy_path_dotdots_fit (n : Nat) (hn : 1 ≤ n) (hfit : 4 * n + 2 < PATH_MAX * 2) :
    (tidy_path (dotdots n)).2 = ['/'] := by
  have hlen := dotdots_length n
  have hne : dotdots n ≠ [] := by
    apply List.ne_nil_of_length_pos; omega
  obtain ⟨w0, w3, ch3, hw0, -, -, hc, n2, n3, n4, -, e⟩ := tidy_path_run (dotdots n) hne
  rw [if_neg (fun h => h.2 (dotdots_last n hn)), List.take_of_length_le (by omega)] at hw0
  subst hw0
  have hshape := dots_shape w3 (cuts_head _ _ hc (dotdots_head n hn))
    (cuts_chars _ _ _ hc (dotdots_chars n)) n2 n3 n4
    (cuts_no3 '.' '.' '.' (by decide) _ _ hc (dotdots_no_dots n))
  have hend := cuts_ends _ _ hc (dotdots_last n hn)
  have hw3 : w3 = ['/'] := by
    rcases hshape with h | h | h
    · exact h
    · rw [h] at hend; simp at hend
    · rw [h] at hend; simp at hend
  rw [e, hw3]
  exact tidy_finish_root ch3

theorem take_dotdots (n : Nat) :
    (dotdots (n + 1)).take (4 * n + 3) = dotdots n ++ ['/', '.', '.'] := by
  rw [dotdots_succ_end, ← dotdots_length n, List.take_append]
  rfl

theorem tidy_path_dotdots_cut (n : Nat) (hn : 1 ≤ n) (hcut : 4 * n + 3 = PATH_MAX * 2 - 1) :
    (tidy_path (dotdots (n + 1))).2 = ['/', '.', '.'] := by
  have hlen := dotdots_length (n + 1)
  have hne : dotdots (n + 1) ≠ [] := by
    apply List.ne_nil_of_length_pos; omega
  obtain ⟨w0, w3, ch3, hw0, -, -, hc, n2, n3, n4, -, e⟩ :=
    tidy_path_run (dotdots (n + 1)) hne
  rw [if_neg (fun h => h.2 (dotdots_last (n + 1) (by omega))), ← hcut, take_dotdots] at hw0
  subst hw0
  have hnn : dotdots n ≠ [] := by
    apply List.ne_nil_of_length_pos
    rw [dotdots_length]; omega
  have hhead : (dotdots n ++ ['/', '.', '.']).head? = some '/' := by
    rw [List.head?_append_of_ne_nil _ hnn]
    exact dotdots_head n hn
  have hchars : ∀ c ∈ dotdots n ++ ['/', '.', '.'], c = '/' ∨ c = '.' := by
    intro c hc
    rcases List.mem_append.mp hc with h | h
    · exact dotdots_chars n c h
    · simp at h
      tauto
  have hno : ¬ ['.', '.', '.'] <:+: dotdots n ++ ['/', '.', '.'] := by
    intro h
    apply dotdots_no_dots (n + 1)
    rw [dotdots_succ_end]
    exact h.trans ⟨[], ['/'], by simp [sDotDotSlash]⟩
  have hshape := dots_shape w3 (cuts_head _ _ hc hhead) (cuts_chars _ _ _ hc hchars)
    n2 n3 n4 (cuts_no3 '.' '.' '.' (by decide) _ _ hc hno)
  have hend := cuts_tail3 '/' '.' '.' (by decide) (by decide) _ _ hc ⟨dotdots n, rfl⟩
  have hw3 : w3 = ['/', '.', '.'] := by
    rcases hshape with h | h | h
    · rw [h] at hend; have := hend.length_le; simp at this
    · rw [h] at hend; have := hend.length_le; simp at this
    · exact h
  rw [e, hw3]
  exact tidy_finish_parent ch3

/-- Why the bound of tidy_path_dotdots is there: 2048 copies make 8192
characters, more than any buffer tidy_path is called on can hold (the
largest, abspath of fix_symlink, holds 2 * PATH_MAX - 1); the embedding,
which takes strings of any length, cuts the working copy behind "/.." there
and gives "/..". -/
theorem tidy_path_dotdots_overlong :
    (tidy_path (dotdots 2048)).2 = ['/', '.', '.'] :=
  tidy_path_dotdots_cut 2047 (by decide) (by decide)

/-- C15: for every n >= 1, tidy_path applied to n concatenated copies of
"/../" comes to an end and returns exactly "/".  A C string that tidy_path
is called on lies in a buffer of at most 2 * PATH_MAX bytes, so it has fewer
than 2 * PATH_MAX characters; for these paths of 4 * n characters that is
n <= 2047, which is what `hfit` says. -/
theorem tidy_path_dotdots (n : Nat) (hn : 1 ≤ n) (hfit : 4 * n + 2 < PATH_MAX * 2) :
    (tidy_path (dotdots n)).2 = ['/'] :=
  tidy_path_dotdots_fit n hn hfit

/-- C15 witness: three copies, "/..//..//../". -/
theorem tidy_path_dotdots_witness : (tidy_path (dotdots 3)).2 = ['/'] :=
  tidy_path_dotdots 3 (by decide) (by decide)

/-! ### shorten_path -/

theorem strstr_first (s pat : List Char) (i : Nat) (h : strstr s pat = some i)
    (A B : List Char) (hs : s = A ++ pat ++ B) : i ≤ A.length := by
  induction s generalizing i A with
  | nil =>
    have : A = [] := by
      cases A with
      | nil => rfl
      | cons a A => simp at hs
    subst this
    cases pat with
    | nil => simp [strstr] at h; omega
    | cons a pat => simp at hs
  | cons c s ih =>
    rw [strstr] at h
    by_cases hp : pat.isPrefixOf (c :: s) = true
    · rw [if_pos hp] at h
      cases h
      exact Nat.zero_le _
    · rw [if_neg hp] at h
      cases hst : strstr s pat with
      | none => simp [hst] at h
      | some j =>
        simp [hst] at h
        subst h
        cases A with
        | nil =>
          exfalso
          apply hp
          rw [List.isPrefixOf_iff_prefix]
          exact ⟨B, by rw [hs]; simp⟩
        | cons a A =>
          simp only [List.cons_append, List.cons.injEq] at hs
          have := ih j hst A hs.2
          simp only [List.length_cons]
          omega

theorem strchr_none (s : List Char) (c : Char) (h : strchr s c = none) : c ∉ s := by
  induction s with
  | nil => simp
  | cons d s ih =>
    rw [strchr] at h
    split_ifs at h with hd
    · simp at h
      simp only [List.mem_cons, not_or]
      exact ⟨fun e => hd e.symm, ih h⟩

theorem strchr_some (s : List Char) (c : Char) (q : Nat) (h : strchr s c = some q) :
    ∃ X B, s = X ++ c :: B ∧ X.length = q ∧ c ∉ X := by
  induction s generalizing q with
  | nil => simp [strchr] at h
  | cons d s ih =>
    rw [strchr] at h
    split_ifs at h with hd
    · cases h
      exact ⟨[], s, by rw [hd]; rfl, rfl, by simp⟩
    · cases hs : strchr s c with
      | none => simp [hs] at h
      | some j =>
        simp [hs] at h
        obtain ⟨X, B, e, hl, hx⟩ := ih j hs
        refine ⟨d :: X, B, by rw [e]; rfl, by simp [hl, h], ?_⟩
        simp only [List.mem_cons, not_or]
        exact ⟨fun e => hd e.symm, hx⟩

/-- One pass of the loop of shorten_path: either nothing is removed and the
loop ends, or the value is `A ++ "../" ++ X ++ "/" ++ B` where that "../" is
the first one in the value and `X` holds no '/', and the loop goes on with
`A ++ B`. -/
theorem shorten_loop_cases (base_path : List Char) (fuel : Nat) (l : List Char) (sh : Int) :
    shorten_loop base_path (fuel + 1) l sh = (sh, l) ∨
    ∃ A X B, l = A ++ sUp ++ X ++ ['/'] ++ B ∧ '/' ∉ X ∧
      (∀ A' B', l = A' ++ sUp ++ B' → A.length ≤ A'.length) ∧
      shorten_loop base_path (fuel + 1) l sh = shorten_loop base_path fuel (A ++ B) 1 := by
  rw [shorten_loop]
  cases hst : strstr l sUp with
  | none => exact Or.inl rfl
  | some p =>
    dsimp only
    split_ifs with hb
    · exact Or.inl rfl
    · cases hch : strchr (l.drop (p + 3)) '/' with
      | none => exact Or.inl rfl
      | some q =>
        right
        obtain ⟨A, B0, hl, hA⟩ := strstr_some _ _ _ hst
        obtain ⟨X, B, hX, hq, hnx⟩ := strchr_some _ _ _ hch
        have hd : l.drop (p + 3) = B0 := by
          rw [hl, ← hA]
          have : A ++ sUp ++ B0 = (A ++ sUp) ++ B0 := rfl
          rw [this]
          exact List.drop_left' (by simp [sUp])
        rw [hd] at hX
        subst hX
        refine ⟨A, X, B, by rw [hl]; simp, hnx,
          fun A' B' h' => by rw [hA]; exact strstr_first _ _ _ hst A' B' h', ?_⟩
        dsimp only
        have e1 : l.take p = A := by
          rw [hl, ← hA, List.append_assoc]
          exact List.take_left' rfl
        have e2 : l.drop (p + 3 + q + 1) = B := by
          rw [hl, ← hA, ← hq]
          have : A ++ sUp ++ (X ++ '/' :: B) = (A ++ sUp ++ X ++ ['/']) ++ B := by simp
          rw [this]
          exact List.drop_left' (by simp [sUp]; omega)
        rw [e1, e2]

/-- C18 as stated fails: in "a../b/c" the removed "../b/" starts inside the
name "a..", which is cut in two, and in "../../x" the removed segment is the
pair "../../". -/
theorem shorten_cuts_names :
    shorten_path "a../b/c".toList "/d/l".toList = (1, "ac".toList) ∧
    shorten_path "../../x".toList "/d/l".toList = (1, "x".toList) := by
  decide

/-- C18, amended: in one pass of the loop of shorten_path either nothing is
removed and the loop ends, or the removed segment starts at the first "../"
of the value, wherever it stands, and ends with the next '/' behind it: the
value is `A ++ "../" ++ X ++ "/" ++ B` with no '/' in `X` (`X` may be empty or
".."), and the loop goes on with `A ++ B`. -/
theorem shorten_removes_segment (base_path : List Char) (fuel : Nat) (l : List Char)
    (sh : Int) :
    shorten_loop base_path (fuel + 1) l sh = (sh, l) ∨
    ∃ A X B, l = A ++ sUp ++ X ++ ['/'] ++ B ∧ '/' ∉ X ∧
      (∀ A' B', l = A' ++ sUp ++ B' → A.length ≤ A'.length) ∧
      shorten_loop base_path (fuel + 1) l sh = shorten_loop base_path fuel (A ++ B) 1 :=
  shorten_loop_cases base_path fuel l sh

theorem shorten_cut_length (l : List Char) (p q : Nat) (hst : strstr l sUp = some p) :
    (l.take p ++ l.drop (p + 3 + q + 1)).length < l.length := by
  obtain ⟨A, B0, hl, hA⟩ := strstr_some _ _ _ hst
  have := congrArg List.length hl
  simp only [List.length_append, sUp, List.length_cons, List.length_nil] at this
  simp only [List.length_append, List.length_take, List.length_drop]
  omega

theorem shorten_loop_spec (base_path : List Char) (hb : base_path ≠ sSlash) (fuel : Nat)
    (l : List Char) (sh : Int) (hf : l.length < fuel) :
    (∀ A B, (shorten_loop base_path fuel l sh).2 = A ++ sUp ++ B → '/' ∉ B) ∧
    (shorten_loop base_path fuel l sh = (sh, l) ∨
      ((shorten_loop base_path fuel l sh).1 = 1 ∧
        (shorten_loop base_path fuel l sh).2.length < l.length)) := by
  induction fuel generalizing l sh with
  | zero => omega
  | succ fuel ih =>
    rw [shorten_loop]
    cases hst : strstr l sUp with
    | none =>
      refine ⟨fun A B h => ?_, Or.inl rfl⟩
      exfalso
      exact (strstr_eq_none_iff _ _).mp hst ⟨A, B, h.symm⟩
    | some p =>
      dsimp only
      rw [if_neg hb]
      cases hch : strchr (l.drop (p + 3)) '/' with
      | none =>
        refine ⟨fun A B h => ?_, Or.inl rfl⟩
        dsimp only at h
        have hp := strstr_first _ _ _ hst A B h
        have hno := strchr_none _ _ hch
        intro hB
        apply hno
        have hB' : B = l.drop (A.length + 3) := by
          rw [h]
          have : A ++ sUp ++ B = (A ++ sUp) ++ B := rfl
          rw [this]
          exact (List.drop_left' (by simp [sUp])).symm
        have : l.drop (A.length + 3) = (l.drop (p + 3)).drop (A.length - p) := by
          rw [List.drop_drop]
          congr 1
          omega
        rw [hB', this] at hB
        exact List.mem_of_mem_drop hB
      | some q =>
        dsimp only
        have hlt := shorten_cut_length l p q hst
        obtain ⟨i1, i2⟩ := ih (l.take p ++ l.drop (p + 3 + q + 1)) 1 (by omega)
        refine ⟨i1, Or.inr ?_⟩
        rcases i2 with h | ⟨h1, h2⟩
        · rw [h]; exact ⟨rfl, hlt⟩
        · exact ⟨h1, by omega⟩

theorem shorten_loop_fuel (base_path : List Char) (f1 f2 : Nat) (l : List Char) (sh : Int)
    (h1 : l.length < f1) (h2 : l.length < f2) :
    shorten_loop base_path f1 l sh = shorten_loop base_path f2 l sh := by
  induction f1 generalizing f2 l sh with
  | zero => omega
  | succ f1 ih =>
    cases f2 with
    | zero => omega
    | succ f2 =>
      rw [shorten_loop, shorten_loop]
      cases hst : strstr l sUp with
      | none => rfl
      | some p =>
        dsimp only
        split_ifs
        · rfl
        · cases hch : strchr (l.drop (p + 3)) '/' with
          | none => rfl
          | some q =>
            dsimp only
            have hlt := shorten_cut_length l p q hst
            exact ih f2 _ 1 (by omega) (by omega)

/-- Why shorten_path_spec asks for a non-empty base path: with the empty
string, which fix_symlink never passes (lines 391 and 454 pass the path of
the link), the guard of line 187 returns at once and the value "../a/b"
stays as it is. -/
theorem shorten_empty_base :
    shorten_path "../a/b".toList [] = (0, "../a/b".toList) ∧
    "../a/b".toList = [] ++ sUp ++ "a/b".toList ∧ '/' ∈ "a/b".toList := by
  decide

/-- C19: for every link value and every base path other than "/" (a base
path is the path of a link, lines 391 and 454, hence never the empty string),
the loop of shorten_path comes to an end by itself (a longer bound on the
passes gives the same result, and a value that changed got shorter), no "../"
in the result is followed by a '/' anywhere behind it, and the flag is
non-zero exactly when the result differs from the value. -/
theorem shorten_path_spec (v base_path : List Char) (hb : base_path ≠ sSlash)
    (hne : base_path ≠ []) :
    (∀ fuel, v.length < fuel →
      shorten_loop base_path fuel v 0 = shorten_path v base_path) ∧
    (∀ A B, (shorten_path v base_path).2 = A ++ sUp ++ B → '/' ∉ B) ∧
    ((shorten_path v base_path).1 ≠ 0 ↔ (shorten_path v base_path).2 ≠ v) ∧
    ((shorten_path v base_path).2 ≠ v → (shorten_path v base_path).2.length < v.length) := by
  have hsp : shorten_path v base_path = shorten_loop base_path (v.length + 1) v 0 := by
    unfold shorten_path
    split_ifs with h
    · rcases h with h | h
      · have : v = [] := by simpa using h
        subst this
        rfl
      · exact absurd (by simpa using h) hne
    · rfl
  obtain ⟨s1, s2⟩ := shorten_loop_spec base_path hb (v.length + 1) v 0 (Nat.lt_succ_self _)
  rw [hsp]
  refine ⟨fun fuel hf => shorten_loop_fuel base_path _ _ v 0 hf (Nat.lt_succ_self _), s1,
    ?_, ?_⟩
  · rcases s2 with h | ⟨h1, h2⟩
    · rw [h]; simp
    · rw [h1]
      refine ⟨fun _ h => ?_, fun _ => by decide⟩
      rw [h] at h2
      exact absurd h2 (lt_irrefl _)
  · rcases s2 with h | ⟨-, h2⟩
    · rw [h]; simp
    · exact fun _ => h2

/-- C19 witness: the value "x/../y/z/../../w" under the base path /d/l. -/
theorem shorten_path_spec_witness :
    (∀ fuel, "x/../y/z/../../w".toList.length < fuel →
      shorten_loop "/d/l".toList fuel "x/../y/z/../../w".toList 0 =
        shorten_path "x/../y/z/../../w".toList "/d/l".toList) ∧
    (∀ A B, (shorten_path "x/../y/z/../../w".toList "/d/l".toList).2 = A ++ sUp ++ B →
      '/' ∉ B) ∧
    ((shorten_path "x/../y/z/../../w".toList "/d/l".toList).1 ≠ 0 ↔
      (shorten_path "x/../y/z/../../w".toList "/d/l".toList).2 ≠
        "x/../y/z/../../w".toList) ∧
    ((shorten_path "x/../y/z/../../w".toList "/d/l".toList).2 ≠ "x/../y/z/../../w".toList →
      (shorten_path "x/../y/z/../../w".toList "/d/l".toList).2.length <
        "x/../y/z/../../w".toList.length) :=
  shorten_path_spec "x/../y/z/../../w".toList "/d/l".toList (by decide) (by decide)

/-! ### build_relative_path: the result fits the buffer -/

theorem emit_ups_fits (out_size n : Nat) (out : List Char) (needed : Nat)
    (hlen : out.length = needed)
    (hok : (emit_ups out_size n out needed).1 = true) :
    (emit_ups out_size n out needed).2.1.length = (emit_ups out_size n out needed).2.2 ∧
    ((emit_ups out_size n out needed).2 = (out, needed) ∨
      (emit_ups out_size n out needed).2.2 + 1 < out_size) := by
  induction n generalizing out needed with
  | zero => exact ⟨hlen, Or.inl rfl⟩
  | succ n ih =>
    rw [emit_ups] at hok ⊢
    by_cases hc : (needed : Int) + 4 ≥ int_cast out_size
    · rw [if_pos hc] at hok
      cases hok
    · rw [if_neg hc] at hok ⊢
      have hle := int_cast_le out_size
      have hl : (out ++ sUp).length = needed + 3 := by simp [sUp, hlen]
      obtain ⟨i1, i2⟩ := ih (out ++ sUp) (needed + 3) hl hok
      refine ⟨i1, Or.inr ?_⟩
      rcases i2 with h | h
      · rw [h]; dsimp only; omega
      · exact h

theorem emit_tokens_fits (out_size : Nat) (toks : List (List Char)) (out : List Char)
    (needed : Nat) (hlen : out.length = needed)
    (hok : (emit_tokens out_size toks out needed).1 = true) :
    (emit_tokens out_size toks out needed).2.1.length =
      (emit_tokens out_size toks out needed).2.2 ∧
    ((emit_tokens out_size toks out needed).2 = (out, needed) ∨
      (emit_tokens out_size toks out needed).2.2 + 1 < out_size) := by
  induction toks generalizing out needed with
  | nil => exact ⟨hlen, Or.inl rfl⟩
  | cons tok rest ih =>
    rw [emit_tokens] at hok ⊢
    by_cases hc : needed + tok.length + 2 ≥ out_size
    · rw [if_pos hc] at hok
      cases hok
    · rw [if_neg hc] at hok ⊢
      by_cases he : rest.isEmpty = true
      · rw [if_pos he] at hok ⊢
        have hl : (out ++ tok).length = needed + tok.length := by simp [hlen]
        obtain ⟨i1, i2⟩ := ih (out ++ tok) (needed + tok.length) hl hok
        refine ⟨i1, Or.inr ?_⟩
        rcases i2 with h | h
        · rw [h]; dsimp only; omega
        · exact h
      · rw [if_neg he] at hok ⊢
        have hl : (out ++ tok ++ sSlash).length = needed + tok.length + 1 := by
          simp [sSlash, hlen]
          omega
        obtain ⟨i1, i2⟩ := ih (out ++ tok ++ sSlash) (needed + tok.length + 1) hl hok
        refine ⟨i1, Or.inr ?_⟩
        rcases i2 with h | h
        · rw [h]; dsimp only; omega
        · exact h

/-- C21: whenever build_relative_path returns 0, the string it wrote and its
terminating NUL fit the buffer: the length is at most out_size - 1, whatever
realpath returns for the two paths and whatever out_size is. -/
theorem build_relative_path_fits (realpath : List Char → Option (List Char))
    (from_dir to_path out : List Char) (out_size : Nat)
    (h : (build_relative_path realpath from_dir to_path out out_size).1 = 0) :
    (build_relative_path realpath from_dir to_path out out_size).2.length + 1 ≤ out_size := by
  unfold build_relative_path at h ⊢
  cases hf : realpath from_dir with
  | none => simp [hf] at h
  | some resolved_from =>
    cases ht : realpath to_path with
    | none => simp [hf, ht] at h
    | some resolved_to =>
      simp only [hf, ht] at h ⊢
      generalize hn : ((strtok_all [] (resolved_from.take (PATH_MAX - 1))).take PATH_MAX).length -
          common_prefix_len
            ((strtok_all [] (resolved_from.take (PATH_MAX - 1))).take PATH_MAX)
            ((strtok_all [] (resolved_to.take (PATH_MAX - 1))).take PATH_MAX) = n at h ⊢
      generalize ((strtok_all [] (resolved_to.take (PATH_MAX - 1))).take PATH_MAX).drop
          (common_prefix_len
            ((strtok_all [] (resolved_from.take (PATH_MAX - 1))).take PATH_MAX)
            ((strtok_all [] (resolved_to.take (PATH_MAX - 1))).take PATH_MAX)) = toks at h ⊢
      by_cases h1 : (emit_ups out_size n [] 0).1 = false
      · rw [if_pos h1] at h
        cases h
      · rw [if_neg h1] at h ⊢
        have k1 : (emit_ups out_size n [] 0).1 = true := by simpa using h1
        obtain ⟨a1, a2⟩ := emit_ups_fits _ _ [] 0 rfl k1
        by_cases h2 : (emit_tokens out_size toks (emit_ups out_size n [] 0).2.1
            (emit_ups out_size n [] 0).2.2).1 = false
        · rw [if_pos h2] at h
          cases h
        · rw [if_neg h2] at h ⊢
          have k2 : (emit_tokens out_size toks (emit_ups out_size n [] 0).2.1
              (emit_ups out_size n [] 0).2.2).1 = true := by simpa using h2
          obtain ⟨b1, b2⟩ := emit_tokens_fits _ _ _ _ a1 k2
          by_cases h3 : (emit_tokens out_size toks (emit_ups out_size n [] 0).2.1
              (emit_ups out_size n [] 0).2.2).2.1.isEmpty = true
          · rw [if_pos h3] at h ⊢
            by_cases h4 : out_size > 1
            · rw [if_pos h4]
              simp only [List.length_singleton]
              omega
            · rw [if_neg h4] at h
              cases h
          · rw [if_neg h3] at h ⊢
            dsimp only
            rcases b2 with hb | hb
            · rcases a2 with ha | ha
              · exfalso
                apply h3
                rw [hb, ha]
                rfl
              · rw [hb] at b1 ⊢
                dsimp only at b1 ⊢
                omega
            · omega

/-- C21 witness: from /tree/a to /tree/b/file with a buffer of PATH_MAX + 1
bytes. -/
theorem build_relative_path_fits_witness :
    (build_relative_path some "/tree/a".toList "/tree/b/file".toList []
      (PATH_MAX + 1)).2.length + 1 ≤ PATH_MAX + 1 :=
  build_relative_path_fits some "/tree/a".toList "/tree/b/file".toList []
    (PATH_MAX + 1) (by decide)

/-! ### tidy_path on relative paths -/

/-- C22: the relative paths "a/../b" and "../.." come back from tidy_path as
"/b" and "/", which begin with '/'. -/
theorem tidy_path_makes_absolute :
    tidy_path "a/../b".toList = (1, "/b".toList) ∧
    "a/../b".toList.head? ≠ some '/' ∧ "/b".toList.head? = some '/' ∧
    tidy_path "../..".toList = (1, "/".toList) := by
  decide

/-- C23: with every option at its default (shorten off) the relative link
/x/y/z/l with value "../..", which denotes /x, is rewritten to "/"; the
lexical normalisation of "/x/y/z" ++ "/" ++ "/" is /x/y/z and that of
"/x/y/z" ++ "/" ++ "../.." is /x, and as an absolute value "/" denotes the
root. -/
theorem rewrite_changes_target :
    fix_symlink (tree_env tree_xyz "/x/y/z/l".toList "../..".toList) default_config
      "/x/y/z/l".toList 0
      = [Event.sys_unlink "/x/y/z/l".toList,
         Event.sys_symlink "/".toList "/x/y/z/l".toList,
         Event.print Report.changed "/x/y/z/l".toList "/".toList] ∧
    lexical_normalize ("/x/y/z".toList ++ "/".toList ++ "/".toList) = "/x/y/z".toList ∧
    lexical_normalize ("/x/y/z".toList ++ "/".toList ++ "../..".toList) = "/x".toList ∧
    denotes tree_xyz "/x/y/z/l".toList "../..".toList = some ["x".toList] ∧
    denotes tree_xyz "/x/y/z/l".toList "/".toList = some [] := by
  decide

end Symlinks
